import Mathlib

/-!
# Point enumerators of `surfaceenum.cpp`

A shallow embedding of the four point enumerators (`spiralenum`, `zigzagenum`,
`triangleenum`, `diamondenum`) and of the helpers they use, followed by the
properties proved about them.

Modelling conventions.

* C++ `int` and `unsigned` values are modelled by unbounded integers: every
  statement below is about runs in which no intermediate value leaves the
  32-bit range (and in which the width converted to `unsigned` is not
  negative).  The `unsigned n` parameter of `n2pt` is a natural number.
* C++ `/` and `%` on integers truncate toward zero: `Int.tdiv`, `Int.tmod`.
  A zero divisor is undefined behaviour in C++; `idiv` and `imod` report it as
  an error, so that "does not divide by zero" is a statement about the model.
* `throw "invalid q"` is `Except.error "invalid q"`.
* A C++ object `spiralenum(w)` is the structure value `spiralenum.mk w`; the
  base class `enumbase` is the record of the width and the three virtual
  functions.
* The loops of `test` that could run on are given fuel and return `none` when
  it runs out; the theorems show that `maxiter()` units are enough.
* `point::dist` is a double square root; distances are stated through the
  integer under the root (`point.distsq`), so "distance 1" is `distsq = 1` and
  "distance `sqrt(2)*(w-1)`" is `distsq = 2*(w-1)^2`.
-/

deriving instance DecidableEq for Except

/-- The 2-d point object of the source: two `int` coordinates. -/
structure point where
  x : Int
  y : Int
deriving DecidableEq, Repr

/-- The source's `intsqrt`: `std::sqrt((double)n)` converted to `int`.  For a
non-negative 32-bit `n` the correctly rounded double square root truncates to
the exact floor square root.  A negative argument (NaN converted to `int`) is
undefined in the source and is 0 here; no caller reaches it. -/
def intsqrt (n : Int) : Int := (Nat.sqrt n.toNat : Int)

/-- The source's `intsqr`: `n*n`. -/
def intsqr (n : Int) : Int := n * n

/-- The source's variadic `nmax`: `nmax(x) = x`,
`nmax(x, args...) = std::max(x, nmax(args...))`. -/
def nmax (x : Int) : List Int → Int
  | [] => x
  | a :: as => max x (nmax a as)

/-- C++ `a / b` on integers: truncation toward zero, a zero divisor is an error. -/
def idiv (a b : Int) : Except String Int :=
  if b = 0 then .error "division by zero" else .ok (Int.tdiv a b)

/-- C++ `a % b` on integers: remainder of the truncating division, a zero
divisor is an error. -/
def imod (a b : Int) : Except String Int :=
  if b = 0 then .error "division by zero" else .ok (Int.tmod a b)

/-! ## spiralenum -/

/-- The object `spiralenum(w)`: its only state is the width `_w` of `enumbase`. -/
structure spiralenum where
  _w : Int
deriving DecidableEq, Repr

/-- `spiralenum::maxiter`: `intsqr((_w-1)*2+1)`. -/
def spiralenum.maxiter (self : spiralenum) : Int :=
  intsqr ((self._w - 1) * 2 + 1)

/-- `spiralenum::n2pt`. -/
def spiralenum.n2pt (_self : spiralenum) (n : Nat) : Except String point :=
  if n = 0 then .ok ⟨0, 0⟩ else do
    let s := Int.tdiv (intsqrt n - 1) 2
    let r := (n : Int) - intsqr (s * 2 + 1)
    let s := s + 1
    let q ← idiv r (2 * s)
    let m ← imod r (2 * s)
    if q = 0 then pure ⟨s, m - s + 1⟩
    else if q = 1 then pure ⟨s - 1 - m, s⟩
    else if q = 2 then pure ⟨-s, s - 1 - m⟩
    else if q = 3 then pure ⟨m - s + 1, -s⟩
    else .error "invalid q"

/-- `spiralenum::pt2n`. -/
def spiralenum.pt2n (_self : spiralenum) (p : point) : Int :=
  let s := nmax p.x [-p.x, p.y, -p.y]
  let qm : Int × Int :=
    if p.x = s ∧ p.y > -s then (0, p.y + s - 1)
    else if p.y = s then (1, s - 1 - p.x)
    else if p.x = -s then (2, s - 1 - p.y)
    else (3, p.x + s - 1)
  let r := 2 * s * qm.1 + qm.2
  let s := s - 1
  r + intsqr (s * 2 + 1)

/-! ## zigzagenum -/

/-- The object `zigzagenum(w)`. -/
structure zigzagenum where
  _w : Int
deriving DecidableEq, Repr

/-- `zigzagenum::maxiter`: `intsqr(_w)`. -/
def zigzagenum.maxiter (self : zigzagenum) : Int :=
  intsqr self._w

/-- `zigzagenum::n2pt`. -/
def zigzagenum.n2pt (self : zigzagenum) (n : Nat) : Except String point :=
  if self._w = 0 then .ok ⟨0, 0⟩ else do
    let y ← idiv n self._w
    let x ← imod n self._w
    if Int.tmod y 2 ≠ 0 then pure ⟨self._w - 1 - x, y⟩
    else pure ⟨x, y⟩

/-- `zigzagenum::pt2n`. -/
def zigzagenum.pt2n (self : zigzagenum) (p : point) : Int :=
  let x := p.x
  let y := p.y
  let x := if Int.tmod y 2 ≠ 0 then self._w - 1 - x else x
  y * self._w + x

/-! ## triangleenum -/

/-- The object `triangleenum(w)`. -/
structure triangleenum where
  _w : Int
deriving DecidableEq, Repr

/-- `triangleenum::maxiter`: `_w*(_w+1)/2`. -/
def triangleenum.maxiter (self : triangleenum) : Int :=
  Int.tdiv (self._w * (self._w + 1)) 2

/-- `triangleenum::n2pt`. -/
def triangleenum.n2pt (_self : triangleenum) (n : Nat) : point :=
  let i := Int.tdiv (-1 + intsqrt (1 + 8 * (n : Int))) 2
  let j := (n : Int) - Int.tdiv (i * (i + 1)) 2
  let j := if Int.tmod i 2 ≠ 0 then i - j else j
  ⟨j, i - j⟩

/-- `triangleenum::pt2n`. -/
def triangleenum.pt2n (_self : triangleenum) (p : point) : Int :=
  let i := p.x + p.y
  let j := p.x
  let j := if Int.tmod i 2 ≠ 0 then i - j else j
  Int.tdiv (i * (i + 1)) 2 + j

/-! ## diamondenum -/

/-- The object `diamondenum(w)`. -/
structure diamondenum where
  _w : Int
deriving DecidableEq, Repr

/-- `diamondenum::maxiter`: `2*_w*(_w-1)+1`. -/
def diamondenum.maxiter (self : diamondenum) : Int :=
  2 * self._w * (self._w - 1) + 1

/-- `diamondenum::n2pt`. -/
def diamondenum.n2pt (_self : diamondenum) (n : Nat) : Except String point :=
  if n = 0 then .ok ⟨0, 0⟩ else do
    let i := Int.tdiv (1 + intsqrt (2 * (n : Int) - 1)) 2
    let j := (n : Int) - (2 * intsqr i - 2 * i + 1)
    let q ← idiv j i
    let m ← imod j i
    if q = 0 then pure ⟨m + 1, i - 1 - m⟩
    else if q = 1 then pure ⟨i - 1 - m, -m - 1⟩
    else if q = 2 then pure ⟨-m - 1, m - i + 1⟩
    else if q = 3 then pure ⟨m - i + 1, m + 1⟩
    else .error "invalid q"

/-- `diamondenum::pt2n`: the four sign cases and the final `throw`. -/
def diamondenum.pt2n (_self : diamondenum) (p : point) : Except String Int := do
  let qmi : Int × Int × Int ←
    if p.x > 0 ∧ p.y ≥ 0 then pure (0, p.x - 1, p.x + p.y)
    else if p.x > 0 ∧ p.y < 0 then pure (1, -p.y - 1, p.x - p.y)
    else if p.x ≤ 0 ∧ p.y < 0 then pure (2, -p.x - 1, -p.x - p.y)
    else if p.x ≤ 0 ∧ p.y ≥ 0 then pure (3, p.y - 1, -p.x + p.y)
    else .error "invalid q"
  let q := qmi.1
  let m := qmi.2.1
  let i := qmi.2.2
  let j := q * i + m
  pure (j + (2 * intsqr i - 2 * i + 1))

/-! ## Ring coordinates (proof devices) -/

/-- The point that the `switch (q)` of `spiralenum::n2pt` returns for ring `s`,
edge `q` and offset `m` (the last edge stands for `q = 3`). -/
def spiralenum.ringPoint (s q m : Int) : point :=
  if q = 0 then ⟨s, m - s + 1⟩
  else if q = 1 then ⟨s - 1 - m, s⟩
  else if q = 2 then ⟨-s, s - 1 - m⟩
  else ⟨m - s + 1, -s⟩

/-- The point that the `switch (q)` of `diamondenum::n2pt` returns for ring `i`,
edge `q` and offset `m` (the last edge stands for `q = 3`). -/
def diamondenum.ringPoint (i q m : Int) : point :=
  if q = 0 then ⟨m + 1, i - 1 - m⟩
  else if q = 1 then ⟨i - 1 - m, -m - 1⟩
  else if q = 2 then ⟨-m - 1, m - i + 1⟩
  else ⟨m - i + 1, m + 1⟩

/-! ## The shapes -/

/-- The w-by-w square `0 ≤ x,y < w` of the zig-zag enumerator. -/
def zigzagenum.inShape (self : zigzagenum) (p : point) : Prop :=
  0 ≤ p.x ∧ p.x < self._w ∧ 0 ≤ p.y ∧ p.y < self._w

/-- The Chebyshev ball `max(|x|,|y|) ≤ w-1` of the square spiral. -/
def spiralenum.inShape (self : spiralenum) (p : point) : Prop :=
  max |p.x| |p.y| ≤ self._w - 1

/-- The first-quadrant triangle `x ≥ 0`, `y ≥ 0`, `x+y ≤ w-1`. -/
def triangleenum.inShape (self : triangleenum) (p : point) : Prop :=
  0 ≤ p.x ∧ 0 ≤ p.y ∧ p.x + p.y ≤ self._w - 1

/-- The Manhattan ball `|x|+|y| ≤ w-1` of the diamond enumerator. -/
def diamondenum.inShape (self : diamondenum) (p : point) : Prop :=
  |p.x| + |p.y| ≤ self._w - 1

instance (e : zigzagenum) (p : point) : Decidable (e.inShape p) := by
  unfold zigzagenum.inShape; infer_instance

instance (e : spiralenum) (p : point) : Decidable (e.inShape p) := by
  unfold spiralenum.inShape; infer_instance

instance (e : triangleenum) (p : point) : Decidable (e.inShape p) := by
  unfold triangleenum.inShape; infer_instance

instance (e : diamondenum) (p : point) : Decidable (e.inShape p) := by
  unfold diamondenum.inShape; infer_instance

/-! ## point arithmetic -/

/-- The base class `enumbase`: the width and the three virtual functions, which
every enumerator overrides. -/
structure enumbase where
  _w : Int
  maxiter : Int
  n2pt : Nat → Except String point
  pt2n : point → Except String Int

/-- A `spiralenum` seen through its base class. -/
def spiralenum.toEnumbase (self : spiralenum) : enumbase :=
  { _w := self._w, maxiter := self.maxiter, n2pt := self.n2pt,
    pt2n := fun p => .ok (self.pt2n p) }

/-- A `zigzagenum` seen through its base class. -/
def zigzagenum.toEnumbase (self : zigzagenum) : enumbase :=
  { _w := self._w, maxiter := self.maxiter, n2pt := self.n2pt,
    pt2n := fun p => .ok (self.pt2n p) }

/-- A `triangleenum` seen through its base class. -/
def triangleenum.toEnumbase (self : triangleenum) : enumbase :=
  { _w := self._w, maxiter := self.maxiter, n2pt := fun n => .ok (self.n2pt n),
    pt2n := fun p => .ok (self.pt2n p) }

/-- A `diamondenum` seen through its base class. -/
def diamondenum.toEnumbase (self : diamondenum) : enumbase :=
  { _w := self._w, maxiter := self.maxiter, n2pt := self.n2pt, pt2n := self.pt2n }

/-- `enumbase::width`. -/
def enumbase.width (self : enumbase) : Int := self._w

/-- `enumbase::getpos`: `n2pt(n)`, the `int` argument converted to `unsigned`
(the iterator only passes non-negative values). -/
def enumbase.getpos (self : enumbase) (n : Int) : Except String point :=
  self.n2pt n.toNat

/-- The iterator `enumbase::iter`: the index `_n` and the enumerator `_sp`. -/
structure enumbase.iter where
  _n : Int
  _sp : enumbase

/-- `iter::operator*`. -/
def enumbase.iter.deref (self : enumbase.iter) : Except String point :=
  self._sp.getpos self._n

/-- `iter::operator++`. -/
def enumbase.iter.incr (self : enumbase.iter) : enumbase.iter :=
  { self with _n := self._n + 1 }

/-- `iter::operator!=`: compares the indices only. -/
def enumbase.iter.ne (self rhs : enumbase.iter) : Bool :=
  self._n != rhs._n

/-- `enumbase::begin`. -/
def enumbase.begin (self : enumbase) : enumbase.iter := ⟨0, self⟩

/-- `enumbase::end`. -/
def enumbase.end (self : enumbase) : enumbase.iter := ⟨self.maxiter, self⟩

/-! ## The harness `test` -/

/-- The loop `for (int i=0 ; i<points.maxiter() ; i++) pts.push_back(points.n2pt(i))`
from state `(i, pts)`; `none` when the fuel runs out before the loop ends. -/
def test.ptsLoop (points : enumbase) :
    Nat → Int → List point → Except String (Option (List point))
  | 0, i, pts => if i < points.maxiter then .ok none else .ok (some pts)
  | fuel + 1, i, pts =>
    if i < points.maxiter then do
      let p ← points.n2pt i.toNat
      test.ptsLoop points fuel (i + 1) (pts ++ [p])
    else .ok (some pts)

/-- The loop `for (auto p : points) pts_gen.push_back(p)`, that is
`for (it = begin(); it != end(); ++it) pts_gen.push_back(*it)`, from state
`(it, pts_gen)`; `none` when the fuel runs out before the loop ends. -/
def test.genLoop (points : enumbase) :
    Nat → enumbase.iter → List point → Except String (Option (List point))
  | 0, it, pts_gen => if it.ne points.end then .ok none else .ok (some pts_gen)
  | fuel + 1, it, pts_gen =>
    if it.ne points.end then do
      let p ← it.deref
      test.genLoop points fuel it.incr (pts_gen ++ [p])
    else .ok (some pts_gen)

/-- The point of index `n`: what `n2pt(n)` returns (the origin stands in for a
call that fails; `n2pt` never fails, see `spiral_n2pt_total`,
`diamond_n2pt_total`, `zigzag_n2pt_total`). -/
def enumbase.pt (self : enumbase) (n : Nat) : point :=
  match self.n2pt n with
  | .ok p => p
  | .error _ => ⟨0, 0⟩

/-- The list `pts` of `test`: the points of the indices `0, ..., maxiter()-1`
(see `enum_sequences`: both loops of `test` return it). -/
def test.pts (points : enumbase) : List point :=
  (List.range points.maxiter.toNat).map points.pt

/-- The sequence the specification names: `n2pt(0), n2pt(1), ..., n2pt(maxiter()-1)`,
each entry the outcome of its call. -/
def enumbase.specSequence (self : enumbase) : List (Except String point) :=
  (List.range self.maxiter.toNat).map self.n2pt

/-- The 2-dimensional grid: `_w`, `_w2` and the vector `v`. -/
structure Grid where
  _w : Int
  _w2 : Int
  v : List Int
deriving DecidableEq, Repr

/-- The index computed and checked by `Grid::at`, which returns a reference to
`v[n]`. -/
def Grid.at (self : Grid) (i j : Int) : Except String Nat :=
  let i := i + self._w
  let j := j + self._w
  let n := i * self._w2 + j
  if n < 0 ∨ n ≥ self.v.length then .error "invalid index"
  else .ok n.toNat

theorem idiv_ok (a b : Int) (h : b ≠ 0) : idiv a b = .ok (Int.tdiv a b) := by
  simp [idiv, h]

theorem imod_ok (a b : Int) (h : b ≠ 0) : imod a b = .ok (Int.tmod a b) := by
  simp [imod, h]

theorem tmod_two_ne_zero_iff (a : Int) : Int.tmod a 2 ≠ 0 ↔ a % 2 = 1 := by
  rw [Ne, ← Int.dvd_iff_tmod_eq_zero]; omega

/-! ## zigzagenum: closed form -/

/-- For a positive width `n2pt` does not fail and is the snake formula, written
with the floor division of non-negative numbers. -/
theorem zigzag_n2pt_pos (w : Int) (n : Nat) (hw : 0 < w) :
    (zigzagenum.mk w).n2pt n =
      .ok (if ((n : Int) / w) % 2 = 1 then ⟨w - 1 - (n : Int) % w, (n : Int) / w⟩
           else ⟨(n : Int) % w, (n : Int) / w⟩) := by
  have hw0 : w ≠ 0 := by omega
  have hn : (0 : Int) ≤ n := Int.ofNat_nonneg n
  simp only [zigzagenum.n2pt, idiv_ok _ _ hw0, imod_ok _ _ hw0, if_neg hw0,
    Int.tdiv_eq_ediv hn hw.le, Int.tmod_eq_emod hn hw.le, tmod_two_ne_zero_iff]
  simp only [bind, Except.bind, pure, Except.pure]
  split <;> rfl

theorem zigzag_pt2n_eq (w : Int) (p : point) :
    (zigzagenum.mk w).pt2n p =
      p.y * w + (if p.y % 2 = 1 then w - 1 - p.x else p.x) := by
  simp only [zigzagenum.pt2n, tmod_two_ne_zero_iff]

theorem zigzag_left_inverse (w : Int) (n : Nat) (hw : 0 ≤ w) (hn : (n : Int) < w * w) :
    ∃ p, (zigzagenum.mk w).n2pt n = .ok p ∧ (zigzagenum.mk w).inShape p ∧
      (zigzagenum.mk w).pt2n p = n := by
  have hn0 : (0 : Int) ≤ n := Int.ofNat_nonneg n
  have hw1 : 0 < w := by
    rcases hw.lt_or_eq with h | h
    · exact h
    · subst h; simp at hn; omega
  have hx0 := Int.emod_nonneg (n : Int) hw1.ne'
  have hx1 := Int.emod_lt_of_pos (n : Int) hw1
  have hy0 : 0 ≤ (n : Int) / w := Int.ediv_nonneg hn0 hw1.le
  have hy1 : (n : Int) / w < w := Int.ediv_lt_of_lt_mul hw1 hn
  have hdm : w * ((n : Int) / w) + (n : Int) % w = n := Int.ediv_add_emod _ _
  rw [zigzag_n2pt_pos w n hw1]
  refine ⟨_, rfl, ?_, ?_⟩
  · unfold zigzagenum.inShape
    split <;> simp only <;> omega
  · rw [zigzag_pt2n_eq]
    split <;> simp only [] <;> linarith

theorem intsqrt_nonneg (a : Int) : 0 ≤ intsqrt a := by
  unfold intsqrt; exact Int.ofNat_nonneg _

theorem intsqrt_sq_le (a : Int) (h : 0 ≤ a) : intsqrt a * intsqrt a ≤ a := by
  unfold intsqrt
  have h1 := Nat.sqrt_le a.toNat
  have h2 : ((a.toNat : Nat) : Int) = a := Int.toNat_of_nonneg h
  calc ((Nat.sqrt a.toNat : Nat) : Int) * (Nat.sqrt a.toNat : Nat)
      = ((Nat.sqrt a.toNat * Nat.sqrt a.toNat : Nat) : Int) := by push_cast; ring
    _ ≤ ((a.toNat : Nat) : Int) := Int.ofNat_le.mpr h1
    _ = a := h2

theorem intsqrt_lt_succ_sq (a : Int) (h : 0 ≤ a) :
    a < (intsqrt a + 1) * (intsqrt a + 1) := by
  unfold intsqrt
  have h1 := Nat.lt_succ_sqrt a.toNat
  have h2 : ((a.toNat : Nat) : Int) = a := Int.toNat_of_nonneg h
  calc a = ((a.toNat : Nat) : Int) := h2.symm
    _ < ((Nat.succ (Nat.sqrt a.toNat) * Nat.succ (Nat.sqrt a.toNat) : Nat) : Int) :=
        Int.ofNat_lt.mpr h1
    _ = ((Nat.sqrt a.toNat : Nat) + 1 : Int) * ((Nat.sqrt a.toNat : Nat) + 1) := by
        push_cast; ring

/-- The floor square root lies in `[lo, hi)` as soon as the argument lies in
`[lo², hi²)`. -/
theorem intsqrt_bounds (a lo hi : Int) (h1 : lo * lo ≤ a)
    (h2 : a < hi * hi) (hhi : 0 ≤ hi) : lo ≤ intsqrt a ∧ intsqrt a < hi := by
  have ha : 0 ≤ a := le_trans (mul_self_nonneg lo) h1
  have t0 := intsqrt_nonneg a
  have t1 := intsqrt_sq_le a ha
  have t2 := intsqrt_lt_succ_sq a ha
  constructor
  · by_contra hc
    have : intsqrt a + 1 ≤ lo := by omega
    have := mul_self_le_mul_self (by omega : 0 ≤ intsqrt a + 1) this
    omega
  · by_contra hc
    have : hi ≤ intsqrt a := by omega
    have := mul_self_le_mul_self hhi this
    omega

theorem intsqrt_eq (a t : Int) (ht : 0 ≤ t) (h1 : t * t ≤ a) (h2 : a < (t + 1) * (t + 1)) :
    intsqrt a = t := by
  have := intsqrt_bounds a t (t + 1) h1 h2 (by omega)
  omega

/-- Truncating division by a positive divisor of `b*q + m` with `0 ≤ m < b`. -/
theorem tdiv_tmod_of_decomp (b q m : Int) (hb : 0 < b) (hq : 0 ≤ q) (hm0 : 0 ≤ m)
    (hm1 : m < b) : Int.tdiv (b * q + m) b = q ∧ Int.tmod (b * q + m) b = m := by
  have hr : 0 ≤ b * q + m := by positivity
  rw [Int.tdiv_eq_ediv hr hb.le, Int.tmod_eq_emod hr hb.le]
  constructor
  · rw [add_comm, Int.add_mul_ediv_left _ _ hb.ne', Int.ediv_eq_zero_of_lt hm0 hm1, zero_add]
  · rw [add_comm, Int.add_mul_emod_self_left, Int.emod_eq_of_lt hm0 hm1]

/-- Every `r` with `0 ≤ r < b*k` is `b*q + m` with `0 ≤ q < k` and `0 ≤ m < b`. -/
theorem decomp_exists (b k r : Int) (hb : 0 < b) (hr0 : 0 ≤ r) (hr1 : r < b * k) :
    ∃ q m : Int, 0 ≤ q ∧ q < k ∧ 0 ≤ m ∧ m < b ∧ r = b * q + m := by
  refine ⟨r / b, r % b, Int.ediv_nonneg hr0 hb.le, ?_, Int.emod_nonneg _ hb.ne',
    Int.emod_lt_of_pos _ hb, (Int.ediv_add_emod r b).symm⟩
  exact Int.ediv_lt_of_lt_mul hb (by rwa [mul_comm] at hr1)

/-! ## spiralenum: ring coordinates -/

/-- Ring, edge and offset `(s, q, m)` of the square spiral are valid when
`1 ≤ s`, `q ∈ {0,1,2,3}` and `0 ≤ m < 2s`. -/
theorem spiral_n2pt_ring (e : spiralenum) (n : Nat) (s q m : Int) (hs : 1 ≤ s)
    (hq0 : 0 ≤ q) (hq1 : q < 4) (hm0 : 0 ≤ m) (hm1 : m < 2 * s)
    (hn : (n : Int) = (2 * s - 1) * (2 * s - 1) + (2 * s * q + m)) :
    e.n2pt n = .ok (spiralenum.ringPoint s q m) := by
  have hqm : 0 ≤ 2 * s * q + m := by positivity
  have hqm1 : 2 * s * q + m < 8 * s := by nlinarith
  have hn0 : n ≠ 0 := by
    intro h0; subst h0
    have : 0 < (2 * s - 1) * (2 * s - 1) := mul_pos (by omega) (by omega)
    simp at hn; omega
  have hsq := intsqrt_bounds (n : Int) (2 * s - 1) (2 * s + 1) (by omega) (by nlinarith)
    (by omega)
  have ht0 : 0 ≤ intsqrt (n : Int) - 1 := by omega
  have hs0 : Int.tdiv (intsqrt (n : Int) - 1) 2 = s - 1 := by
    rw [Int.tdiv_eq_ediv ht0 (by decide)]; omega
  have hr : (n : Int) - intsqr ((s - 1) * 2 + 1) = 2 * s * q + m := by
    unfold intsqr; rw [hn]; ring
  obtain ⟨hd, hm⟩ := tdiv_tmod_of_decomp (2 * s) q m (by omega) hq0 hm0 hm1
  have h2s : 2 * (s - 1 + 1) = 2 * s := by ring
  simp only [spiralenum.n2pt, if_neg hn0, hs0, hr, h2s, idiv_ok _ _ (by omega : 2 * s ≠ 0),
    imod_ok _ _ (by omega : 2 * s ≠ 0), hd, hm, bind, Except.bind, pure, Except.pure,
    spiralenum.ringPoint, sub_add_cancel]
  have hq : q = 0 ∨ q = 1 ∨ q = 2 ∨ q = 3 := by omega
  rcases hq with rfl | rfl | rfl | rfl <;> simp

theorem spiral_ringPoint_0 (s m : Int) : spiralenum.ringPoint s 0 m = ⟨s, m - s + 1⟩ := by
  simp [spiralenum.ringPoint]

theorem spiral_ringPoint_1 (s m : Int) : spiralenum.ringPoint s 1 m = ⟨s - 1 - m, s⟩ := by
  simp [spiralenum.ringPoint]

theorem spiral_ringPoint_2 (s m : Int) : spiralenum.ringPoint s 2 m = ⟨-s, s - 1 - m⟩ := by
  simp [spiralenum.ringPoint]

theorem spiral_ringPoint_3 (s m : Int) : spiralenum.ringPoint s 3 m = ⟨m - s + 1, -s⟩ := by
  simp [spiralenum.ringPoint]

/-- The body of `spiralenum::pt2n` once the Chebyshev radius `s` is known. -/
theorem spiral_pt2n_of_max (e : spiralenum) (x y s : Int)
    (hmax : max x (max (-x) (max y (-y))) = s) :
    e.pt2n ⟨x, y⟩ =
      2 * s * (if x = s ∧ y > -s then ((0 : Int), y + s - 1)
        else if y = s then (1, s - 1 - x)
        else if x = -s then (2, s - 1 - y)
        else (3, x + s - 1)).1 +
      (if x = s ∧ y > -s then ((0 : Int), y + s - 1)
        else if y = s then (1, s - 1 - x)
        else if x = -s then (2, s - 1 - y)
        else (3, x + s - 1)).2 + (2 * s - 1) * (2 * s - 1) := by
  subst hmax
  simp only [spiralenum.pt2n, nmax, intsqr]
  ring

theorem spiral_pt2n_ring (e : spiralenum) (s q m : Int) (hs : 1 ≤ s)
    (hq0 : 0 ≤ q) (hq1 : q < 4) (hm0 : 0 ≤ m) (hm1 : m < 2 * s) :
    e.pt2n (spiralenum.ringPoint s q m) = (2 * s - 1) * (2 * s - 1) + (2 * s * q + m) ∧
      max |(spiralenum.ringPoint s q m).x| |(spiralenum.ringPoint s q m).y| = s := by
  have hq : q = 0 ∨ q = 1 ∨ q = 2 ∨ q = 3 := by omega
  rcases hq with rfl | rfl | rfl | rfl
  · rw [spiral_ringPoint_0]
    refine ⟨?_, ?_⟩
    · rw [spiral_pt2n_of_max e _ _ s (by omega), if_pos ⟨rfl, by omega⟩]; ring
    · simp only [abs_eq_max_neg]; omega
  · rw [spiral_ringPoint_1]
    refine ⟨?_, ?_⟩
    · rw [spiral_pt2n_of_max e _ _ s (by omega), if_neg (by omega), if_pos rfl]; ring
    · simp only [abs_eq_max_neg]; omega
  · rw [spiral_ringPoint_2]
    refine ⟨?_, ?_⟩
    · rw [spiral_pt2n_of_max e _ _ s (by omega), if_neg (by omega), if_neg (by omega),
        if_pos rfl]; ring
    · simp only [abs_eq_max_neg]; omega
  · rw [spiral_ringPoint_3]
    refine ⟨?_, ?_⟩
    · rw [spiral_pt2n_of_max e _ _ s (by omega), if_neg (by omega), if_neg (by omega),
        if_neg (by omega)]; ring
    · simp only [abs_eq_max_neg]; omega

/-- Every index `n ≥ 1` has ring coordinates. -/
theorem spiral_index_decomp (n : Nat) (hn : n ≠ 0) :
    ∃ s q m : Int, 1 ≤ s ∧ 0 ≤ q ∧ q < 4 ∧ 0 ≤ m ∧ m < 2 * s ∧
      (n : Int) = (2 * s - 1) * (2 * s - 1) + (2 * s * q + m) := by
  have hn1 : (1 : Int) ≤ n := by omega
  have ht := intsqrt_bounds (n : Int) 1 ((n : Int) + 1) (by omega) (by nlinarith) (by omega)
  have t1 := intsqrt_sq_le (n : Int) (by omega)
  have t2 := intsqrt_lt_succ_sq (n : Int) (by omega)
  generalize intsqrt (n : Int) = t at ht t1 t2
  obtain ⟨s, hs⟩ : ∃ s : Int, s = (t - 1) / 2 + 1 := ⟨_, rfl⟩
  have hs1 : 1 ≤ s := by omega
  have hlo : (2 * s - 1) * (2 * s - 1) ≤ t * t :=
    mul_self_le_mul_self (by omega) (by omega)
  have hhi : (t + 1) * (t + 1) ≤ (2 * s + 1) * (2 * s + 1) :=
    mul_self_le_mul_self (by omega) (by omega)
  obtain ⟨q, m, hq0, hq1, hm0, hm1, hr⟩ :=
    decomp_exists (2 * s) 4 ((n : Int) - (2 * s - 1) * (2 * s - 1)) (by omega) (by omega)
      (by nlinarith)
  exact ⟨s, q, m, hs1, hq0, hq1, hm0, hm1, by omega⟩

theorem spiral_n2pt_zero (e : spiralenum) : e.n2pt 0 = .ok ⟨0, 0⟩ := by
  simp [spiralenum.n2pt]

theorem spiral_pt2n_origin (e : spiralenum) : e.pt2n ⟨0, 0⟩ = 0 := by
  simp [spiralenum.pt2n, nmax, intsqr]

/-- Ring `s` holds the indices `(2s-1)² ≤ n < (2s+1)²`; it lies inside width `w`
exactly when `s ≤ w-1`. -/
theorem spiral_ring_bound (w s r : Int) (hw : 1 ≤ w) (hs : 1 ≤ s) (hr0 : 0 ≤ r)
    (hr1 : r < 8 * s) :
    (2 * s - 1) * (2 * s - 1) + r < ((w - 1) * 2 + 1) * ((w - 1) * 2 + 1) ↔ s ≤ w - 1 := by
  constructor
  · intro h
    by_contra hc
    have : (2 * w - 1) * (2 * w - 1) ≤ (2 * s - 1) * (2 * s - 1) :=
      mul_self_le_mul_self (by omega) (by omega)
    nlinarith
  · intro h
    have : (2 * s + 1) * (2 * s + 1) ≤ (2 * w - 1) * (2 * w - 1) :=
      mul_self_le_mul_self (by omega) (by omega)
    nlinarith

/-- Left inverse with the ring of the produced point: `n2pt` succeeds, `pt2n`
undoes it, and for `w ≥ 1` the point lies in the Chebyshev ball of radius `w-1`
exactly when `n < (2w-1)²`. -/
theorem spiral_left_inverse (w : Int) (n : Nat) :
    ∃ p, (spiralenum.mk w).n2pt n = .ok p ∧ (spiralenum.mk w).pt2n p = n ∧
      (1 ≤ w → ((n : Int) < ((w - 1) * 2 + 1) * ((w - 1) * 2 + 1) ↔
        (spiralenum.mk w).inShape p)) := by
  by_cases hn : n = 0
  · subst hn
    refine ⟨⟨0, 0⟩, spiral_n2pt_zero _, by rw [spiral_pt2n_origin]; rfl, ?_⟩
    intro hw
    have : 0 < ((w - 1) * 2 + 1) * ((w - 1) * 2 + 1) := mul_pos (by omega) (by omega)
    simp only [spiralenum.inShape, abs_zero, max_self, Nat.cast_zero]
    constructor
    · intro _; omega
    · intro _; exact this
  · obtain ⟨s, q, m, hs, hq0, hq1, hm0, hm1, hdec⟩ := spiral_index_decomp n hn
    have hpt := spiral_pt2n_ring (spiralenum.mk w) s q m hs hq0 hq1 hm0 hm1
    refine ⟨_, spiral_n2pt_ring _ n s q m hs hq0 hq1 hm0 hm1 hdec, ?_, ?_⟩
    · rw [hpt.1, hdec]
    · intro hw
      rw [hdec, spiralenum.inShape, hpt.2]
      exact spiral_ring_bound w s _ hw hs (by positivity) (by nlinarith)

theorem diamond_ringPoint_0 (i m : Int) :
    diamondenum.ringPoint i 0 m = ⟨m + 1, i - 1 - m⟩ := by
  simp [diamondenum.ringPoint]

theorem diamond_ringPoint_1 (i m : Int) :
    diamondenum.ringPoint i 1 m = ⟨i - 1 - m, -m - 1⟩ := by
  simp [diamondenum.ringPoint]

theorem diamond_ringPoint_2 (i m : Int) :
    diamondenum.ringPoint i 2 m = ⟨-m - 1, m - i + 1⟩ := by
  simp [diamondenum.ringPoint]

theorem diamond_ringPoint_3 (i m : Int) :
    diamondenum.ringPoint i 3 m = ⟨m - i + 1, m + 1⟩ := by
  simp [diamondenum.ringPoint]

/-- Ring, edge and offset `(i, q, m)` of the diamond are valid when `1 ≤ i`,
`q ∈ {0,1,2,3}` and `0 ≤ m < i`. -/
theorem diamond_n2pt_ring (e : diamondenum) (n : Nat) (i q m : Int) (hi : 1 ≤ i)
    (hq0 : 0 ≤ q) (hq1 : q < 4) (hm0 : 0 ≤ m) (hm1 : m < i)
    (hn : (n : Int) = (2 * (i * i) - 2 * i + 1) + (i * q + m)) :
    e.n2pt n = .ok (diamondenum.ringPoint i q m) := by
  have hqm : 0 ≤ i * q + m := by positivity
  have hqm1 : i * q + m < 4 * i := by nlinarith
  have hn0 : n ≠ 0 := by
    intro h0; subst h0
    have : 0 ≤ (i - 1) * i := mul_nonneg (by omega) (by omega)
    simp at hn; nlinarith
  have hsq := intsqrt_bounds (2 * (n : Int) - 1) (2 * i - 1) (2 * i + 1) (by nlinarith)
    (by nlinarith) (by omega)
  have ht0 : 0 ≤ 1 + intsqrt (2 * (n : Int) - 1) := by omega
  have hi0 : Int.tdiv (1 + intsqrt (2 * (n : Int) - 1)) 2 = i := by
    rw [Int.tdiv_eq_ediv ht0 (by decide)]; omega
  have hr : (n : Int) - (2 * intsqr i - 2 * i + 1) = i * q + m := by
    unfold intsqr; rw [hn]; ring
  obtain ⟨hd, hm⟩ := tdiv_tmod_of_decomp i q m (by omega) hq0 hm0 hm1
  simp only [diamondenum.n2pt, if_neg hn0, hi0, hr, idiv_ok _ _ (by omega : i ≠ 0),
    imod_ok _ _ (by omega : i ≠ 0), hd, hm, bind, Except.bind, pure, Except.pure,
    diamondenum.ringPoint]
  have hq : q = 0 ∨ q = 1 ∨ q = 2 ∨ q = 3 := by omega
  rcases hq with rfl | rfl | rfl | rfl <;> simp

/-- The four sign cases of `diamondenum::pt2n`, one branch each. -/
theorem diamond_pt2n_case0 (e : diamondenum) (x y : Int) (hx : 0 < x) (hy : 0 ≤ y) :
    e.pt2n ⟨x, y⟩ = .ok (0 * (x + y) + (x - 1) + (2 * intsqr (x + y) - 2 * (x + y) + 1)) := by
  simp [diamondenum.pt2n, hx, hy, bind, Except.bind, pure, Except.pure]

theorem diamond_pt2n_case1 (e : diamondenum) (x y : Int) (hx : 0 < x) (hy : y < 0) :
    e.pt2n ⟨x, y⟩ = .ok (1 * (x - y) + (-y - 1) + (2 * intsqr (x - y) - 2 * (x - y) + 1)) := by
  have hy2 : ¬ (0 ≤ y) := by omega
  simp [diamondenum.pt2n, hx, hy, hy2, bind, Except.bind, pure, Except.pure]

theorem diamond_pt2n_case2 (e : diamondenum) (x y : Int) (hx : x ≤ 0) (hy : y < 0) :
    e.pt2n ⟨x, y⟩ =
      .ok (2 * (-x - y) + (-x - 1) + (2 * intsqr (-x - y) - 2 * (-x - y) + 1)) := by
  have hx2 : ¬ (0 < x) := by omega
  simp [diamondenum.pt2n, hx, hy, hx2, bind, Except.bind, pure, Except.pure]

theorem diamond_pt2n_case3 (e : diamondenum) (x y : Int) (hx : x ≤ 0) (hy : 0 ≤ y) :
    e.pt2n ⟨x, y⟩ =
      .ok (3 * (-x + y) + (y - 1) + (2 * intsqr (-x + y) - 2 * (-x + y) + 1)) := by
  have hx2 : ¬ (0 < x) := by omega
  have hy2 : ¬ (y < 0) := by omega
  simp [diamondenum.pt2n, hx, hy, hx2, hy2, bind, Except.bind, pure, Except.pure]

/-- The final `throw` of `diamondenum::pt2n` is never reached. -/
theorem diamond_pt2n_total (e : diamondenum) (p : point) : ∃ k, e.pt2n p = .ok k := by
  obtain ⟨x, y⟩ := p
  rcases lt_or_le 0 x with hx | hx <;> rcases lt_or_le y 0 with hy | hy
  · exact ⟨_, diamond_pt2n_case1 e x y hx hy⟩
  · exact ⟨_, diamond_pt2n_case0 e x y hx hy⟩
  · exact ⟨_, diamond_pt2n_case2 e x y hx hy⟩
  · exact ⟨_, diamond_pt2n_case3 e x y hx hy⟩

theorem diamond_pt2n_ring (e : diamondenum) (i q m : Int) (hi : 1 ≤ i)
    (hq0 : 0 ≤ q) (hq1 : q < 4) (hm0 : 0 ≤ m) (hm1 : m < i) :
    e.pt2n (diamondenum.ringPoint i q m) = .ok ((2 * (i * i) - 2 * i + 1) + (i * q + m)) ∧
      |(diamondenum.ringPoint i q m).x| + |(diamondenum.ringPoint i q m).y| = i := by
  have hq : q = 0 ∨ q = 1 ∨ q = 2 ∨ q = 3 := by omega
  rcases hq with rfl | rfl | rfl | rfl
  · rw [diamond_ringPoint_0]
    refine ⟨?_, ?_⟩
    · rw [diamond_pt2n_case0 e _ _ (by omega) (by omega)]
      have h : m + 1 + (i - 1 - m) = i := by ring
      rw [h, intsqr]; congr 1; ring
    · simp only [abs_eq_max_neg]; omega
  · rw [diamond_ringPoint_1]
    refine ⟨?_, ?_⟩
    · rcases lt_or_le 0 (i - 1 - m) with hx | hx
      · rw [diamond_pt2n_case1 e _ _ hx (by omega)]
        have h : i - 1 - m - (-m - 1) = i := by ring
        rw [h, intsqr]; congr 1; ring
      · rw [diamond_pt2n_case2 e _ _ hx (by omega)]
        have h : -(i - 1 - m) - (-m - 1) = i := by omega
        have hm : m = i - 1 := by omega
        rw [h, intsqr, hm]; congr 1; ring
    · simp only [abs_eq_max_neg]; omega
  · rw [diamond_ringPoint_2]
    refine ⟨?_, ?_⟩
    · rcases lt_or_le (m - i + 1) 0 with hy | hy
      · rw [diamond_pt2n_case2 e _ _ (by omega) hy]
        have h : -(-m - 1) - (m - i + 1) = i := by ring
        rw [h, intsqr]; congr 1; ring
      · rw [diamond_pt2n_case3 e _ _ (by omega) hy]
        have hm : m = i - 1 := by omega
        have h : -(-m - 1) + (m - i + 1) = i := by omega
        rw [h, intsqr, hm]; congr 1; ring
    · simp only [abs_eq_max_neg]; omega
  · rw [diamond_ringPoint_3]
    refine ⟨?_, ?_⟩
    · rw [diamond_pt2n_case3 e _ _ (by omega) (by omega)]
      have h : -(m - i + 1) + (m + 1) = i := by ring
      rw [h, intsqr]; congr 1; ring
    · simp only [abs_eq_max_neg]; omega

/-- Every index `n ≥ 1` has ring coordinates. -/
theorem diamond_index_decomp (n : Nat) (hn : n ≠ 0) :
    ∃ i q m : Int, 1 ≤ i ∧ 0 ≤ q ∧ q < 4 ∧ 0 ≤ m ∧ m < i ∧
      (n : Int) = (2 * (i * i) - 2 * i + 1) + (i * q + m) := by
  have hn1 : (1 : Int) ≤ n := by omega
  have ht := intsqrt_bounds (2 * (n : Int) - 1) 1 (2 * (n : Int)) (by omega) (by nlinarith)
    (by omega)
  have t1 := intsqrt_sq_le (2 * (n : Int) - 1) (by omega)
  have t2 := intsqrt_lt_succ_sq (2 * (n : Int) - 1) (by omega)
  generalize intsqrt (2 * (n : Int) - 1) = t at ht t1 t2
  obtain ⟨i, hi⟩ : ∃ i : Int, i = (1 + t) / 2 := ⟨_, rfl⟩
  have hi1 : 1 ≤ i := by omega
  have hlo : (2 * i - 1) * (2 * i - 1) ≤ t * t :=
    mul_self_le_mul_self (by omega) (by omega)
  have hhi : (t + 1) * (t + 1) ≤ (2 * i + 1) * (2 * i + 1) :=
    mul_self_le_mul_self (by omega) (by omega)
  obtain ⟨q, m, hq0, hq1, hm0, hm1, hr⟩ :=
    decomp_exists i 4 ((n : Int) - (2 * (i * i) - 2 * i + 1)) (by omega) (by nlinarith)
      (by nlinarith)
  exact ⟨i, q, m, hi1, hq0, hq1, hm0, hm1, by omega⟩

theorem diamond_n2pt_zero (e : diamondenum) : e.n2pt 0 = .ok ⟨0, 0⟩ := by
  simp [diamondenum.n2pt]

theorem diamond_pt2n_origin (e : diamondenum) : e.pt2n ⟨0, 0⟩ = .ok 0 := by
  rw [diamond_pt2n_case3 e 0 0 (le_refl _) (le_refl _)]; simp [intsqr]

/-- Ring `i` holds the indices `2i²-2i+1 ≤ n < 2i²+2i+1`; it lies inside width
`w` exactly when `i ≤ w-1`. -/
theorem diamond_ring_bound (w i r : Int) (hw : 1 ≤ w) (hi : 1 ≤ i) (hr0 : 0 ≤ r)
    (hr1 : r < 4 * i) :
    (2 * (i * i) - 2 * i + 1) + r < 2 * w * (w - 1) + 1 ↔ i ≤ w - 1 := by
  constructor
  · intro h
    by_contra hc
    have : w * w ≤ i * i := mul_self_le_mul_self (by omega) (by omega)
    nlinarith
  · intro h
    have : (i + 1) * (i + 1) ≤ w * w := mul_self_le_mul_self (by omega) (by omega)
    nlinarith

/-- Left inverse with the ring of the produced point. -/
theorem diamond_left_inverse (w : Int) (n : Nat) :
    ∃ p, (diamondenum.mk w).n2pt n = .ok p ∧ (diamondenum.mk w).pt2n p = .ok (n : Int) ∧
      (1 ≤ w → ((n : Int) < 2 * w * (w - 1) + 1 ↔ (diamondenum.mk w).inShape p)) := by
  by_cases hn : n = 0
  · subst hn
    refine ⟨⟨0, 0⟩, diamond_n2pt_zero _, by rw [diamond_pt2n_origin]; rfl, ?_⟩
    intro hw
    have : 0 ≤ w * (w - 1) := mul_nonneg (by omega) (by omega)
    simp only [diamondenum.inShape, abs_zero, add_zero, Nat.cast_zero]
    constructor
    · intro _; omega
    · intro _; nlinarith
  · obtain ⟨i, q, m, hi, hq0, hq1, hm0, hm1, hdec⟩ := diamond_index_decomp n hn
    have hpt := diamond_pt2n_ring (diamondenum.mk w) i q m hi hq0 hq1 hm0 hm1
    refine ⟨_, diamond_n2pt_ring _ n i q m hi hq0 hq1 hm0 hm1 hdec, ?_, ?_⟩
    · rw [hpt.1, hdec]
    · intro hw
      rw [hdec, diamondenum.inShape, hpt.2]
      exact diamond_ring_bound w i _ hw hi (by positivity) (by nlinarith)

/-- The product `i(i+1)` is even, so halving it loses nothing. -/
theorem two_mul_tri (i : Int) : 2 * (i * (i + 1) / 2) = i * (i + 1) :=
  Int.mul_ediv_cancel' (Int.even_mul_succ_self i).two_dvd

theorem mul_succ_nonneg (i : Int) : 0 ≤ i * (i + 1) := by
  rcases le_or_lt 0 i with h | h
  · exact mul_nonneg h (by omega)
  · exact mul_nonneg_of_nonpos_of_nonpos (by omega) (by omega)

theorem tdiv_tri (i : Int) : Int.tdiv (i * (i + 1)) 2 = i * (i + 1) / 2 :=
  Int.tdiv_eq_ediv (mul_succ_nonneg i) (by decide)

/-- On diagonal `i`, offset `j` (`0 ≤ j ≤ i`), `n2pt` returns `(i-j, j)` for odd
`i` and `(j, i-j)` for even `i`. -/
theorem triangle_n2pt_diag (e : triangleenum) (n : Nat) (i j : Int) (hi : 0 ≤ i)
    (hj0 : 0 ≤ j) (hj1 : j ≤ i) (hn : (n : Int) = i * (i + 1) / 2 + j) :
    e.n2pt n = (if i % 2 = 1 then ⟨i - j, j⟩ else ⟨j, i - j⟩) := by
  have h2 := two_mul_tri i
  have hsq := intsqrt_bounds (1 + 8 * (n : Int)) (2 * i + 1) (2 * i + 3) (by nlinarith)
    (by nlinarith) (by omega)
  have ht0 : 0 ≤ -1 + intsqrt (1 + 8 * (n : Int)) := by omega
  have hi0 : Int.tdiv (-1 + intsqrt (1 + 8 * (n : Int))) 2 = i := by
    rw [Int.tdiv_eq_ediv ht0 (by decide)]; omega
  have hj : (n : Int) - i * (i + 1) / 2 = j := by omega
  simp only [triangleenum.n2pt, hi0, tdiv_tri, hj, tmod_two_ne_zero_iff]
  split
  · congr 1; omega
  · rfl

theorem triangle_pt2n_eq (e : triangleenum) (p : point) :
    e.pt2n p = (p.x + p.y) * (p.x + p.y + 1) / 2 +
      (if (p.x + p.y) % 2 = 1 then p.x + p.y - p.x else p.x) := by
  simp only [triangleenum.pt2n, tdiv_tri, tmod_two_ne_zero_iff]

/-- Every index lies on one diagonal. -/
theorem triangle_index_decomp (n : Nat) :
    ∃ i j : Int, 0 ≤ i ∧ 0 ≤ j ∧ j ≤ i ∧ (n : Int) = i * (i + 1) / 2 + j := by
  have hn0 : (0 : Int) ≤ n := Int.ofNat_nonneg n
  have ht := intsqrt_bounds (1 + 8 * (n : Int)) 1 (2 + 8 * (n : Int)) (by omega)
    (by nlinarith) (by omega)
  have t1 := intsqrt_sq_le (1 + 8 * (n : Int)) (by omega)
  have t2 := intsqrt_lt_succ_sq (1 + 8 * (n : Int)) (by omega)
  generalize intsqrt (1 + 8 * (n : Int)) = t at ht t1 t2
  obtain ⟨i, hi⟩ : ∃ i : Int, i = (t - 1) / 2 := ⟨_, rfl⟩
  have hi0 : 0 ≤ i := by omega
  have hlo : (2 * i + 1) * (2 * i + 1) ≤ t * t :=
    mul_self_le_mul_self (by omega) (by omega)
  have hhi : (t + 1) * (t + 1) ≤ (2 * i + 3) * (2 * i + 3) :=
    mul_self_le_mul_self (by omega) (by omega)
  have h2 := two_mul_tri i
  refine ⟨i, (n : Int) - i * (i + 1) / 2, hi0, ?_, ?_, by omega⟩
  · nlinarith
  · nlinarith

/-- Diagonal `i` holds the indices `i(i+1)/2 ≤ n ≤ i(i+1)/2 + i`; it lies inside
width `w` exactly when `i ≤ w-1`. -/
theorem triangle_diag_bound (w i j : Int) (hw : 0 ≤ w) (hi : 0 ≤ i) (hj0 : 0 ≤ j)
    (hj1 : j ≤ i) :
    i * (i + 1) / 2 + j < Int.tdiv (w * (w + 1)) 2 ↔ i ≤ w - 1 := by
  rw [tdiv_tri]
  have h1 := two_mul_tri i
  have h2 := two_mul_tri w
  constructor
  · intro h
    by_contra hc
    have : w * w ≤ i * i := mul_self_le_mul_self hw (by omega)
    nlinarith
  · intro h
    have : (i + 1) * (i + 1) ≤ w * w := mul_self_le_mul_self (by omega) (by omega)
    nlinarith

/-- Left inverse with the diagonal of the produced point, for every index. -/
theorem triangle_left_inverse (w : Int) (n : Nat) :
    (triangleenum.mk w).pt2n ((triangleenum.mk w).n2pt n) = n ∧
      0 ≤ ((triangleenum.mk w).n2pt n).x ∧ 0 ≤ ((triangleenum.mk w).n2pt n).y ∧
      (0 ≤ w → ((n : Int) < Int.tdiv (w * (w + 1)) 2 ↔
        (triangleenum.mk w).inShape ((triangleenum.mk w).n2pt n))) := by
  obtain ⟨i, j, hi, hj0, hj1, hdec⟩ := triangle_index_decomp n
  rw [triangle_n2pt_diag _ n i j hi hj0 hj1 hdec, triangle_pt2n_eq, hdec]
  by_cases hodd : i % 2 = 1
  · simp only [hodd, if_true, triangleenum.inShape]
    have hsum : i - j + j = i := by ring
    rw [hsum, if_pos hodd]
    refine ⟨by omega, by omega, hj0, ?_⟩
    intro hw
    rw [triangle_diag_bound w i j hw hi hj0 hj1]
    constructor
    · intro h; exact ⟨by omega, hj0, h⟩
    · intro h; exact h.2.2
  · simp only [hodd, if_false, triangleenum.inShape]
    have hsum : j + (i - j) = i := by ring
    rw [hsum, if_neg hodd]
    refine ⟨rfl, hj0, by omega, ?_⟩
    intro hw
    rw [triangle_diag_bound w i j hw hi hj0 hj1]
    constructor
    · intro h; exact ⟨hj0, by omega, h⟩
    · intro h; exact h.2.2

/-- The axis points `(0,-i)` and `(-i,0)` of ring `i ≥ 1`: `n2pt` reaches them on
edge 1 resp. 2 (offset `i-1`), at the indices `2i²` resp. `2i²+i`, and `pt2n`
(through its sign cases 2 resp. 3, offset `-1`) returns those indices. -/
theorem diamond_axis_points (e : diamondenum) (i : Nat) (hi : 1 ≤ i) :
    e.n2pt (2 * i * i) = .ok (diamondenum.ringPoint i 1 (i - 1)) ∧
      e.n2pt (2 * i * i) = .ok ⟨0, -(i : Int)⟩ ∧
      e.pt2n ⟨0, -(i : Int)⟩ = .ok (2 * (i : Int) + (-1) +
        (2 * intsqr (i : Int) - 2 * (i : Int) + 1)) ∧
      e.pt2n ⟨0, -(i : Int)⟩ = .ok ((2 * i * i : Nat) : Int) ∧
      e.n2pt (2 * i * i + i) = .ok (diamondenum.ringPoint i 2 (i - 1)) ∧
      e.n2pt (2 * i * i + i) = .ok ⟨-(i : Int), 0⟩ ∧
      e.pt2n ⟨-(i : Int), 0⟩ = .ok (3 * (i : Int) + (-1) +
        (2 * intsqr (i : Int) - 2 * (i : Int) + 1)) ∧
      e.pt2n ⟨-(i : Int), 0⟩ = .ok ((2 * i * i + i : Nat) : Int) := by
  have hi1 : (1 : Int) ≤ i := by exact_mod_cast hi
  have h1 := diamond_n2pt_ring e (2 * i * i) (i : Int) 1 ((i : Int) - 1) hi1 (by decide)
    (by decide) (by omega) (by omega) (by push_cast; ring)
  have h2 := diamond_n2pt_ring e (2 * i * i + i) (i : Int) 2 ((i : Int) - 1) hi1 (by decide)
    (by decide) (by omega) (by omega) (by push_cast; ring)
  have c2 := diamond_pt2n_case2 e 0 (-(i : Int)) (le_refl _) (by omega)
  have c3 := diamond_pt2n_case3 e (-(i : Int)) 0 (by omega) (le_refl _)
  have e1 : diamondenum.ringPoint (i : Int) 1 ((i : Int) - 1) = ⟨0, -(i : Int)⟩ := by
    rw [diamond_ringPoint_1]; congr 1 <;> ring
  have e2 : diamondenum.ringPoint (i : Int) 2 ((i : Int) - 1) = ⟨-(i : Int), 0⟩ := by
    rw [diamond_ringPoint_2]; congr 1 <;> ring
  have a1 : -(0 : Int) - -(i : Int) = i := by ring
  have a2 : -(0 : Int) - 1 = -1 := by ring
  have a3 : - -(i : Int) + 0 = i := by ring
  have a4 : (0 : Int) - 1 = -1 := by ring
  rw [a1, a2] at c2
  rw [a3, a4] at c3
  refine ⟨h1, e1 ▸ h1, c2, ?_, h2, e2 ▸ h2, c3, ?_⟩
  · rw [c2, intsqr]; congr 1; push_cast; ring
  · rw [c3, intsqr]; congr 1; push_cast; ring

/-! ## Corner points of the square spiral -/

/-- The four corners of ring `s ≥ 1`: `(s,s)`, `(-s,s)`, `(-s,-s)`, `(s,-s)` are
the last points of the edges 0, 1, 2, 3, at the indices `4s²-2s`, `4s²`,
`4s²+2s`, `4s²+4s`. -/
theorem spiral_corner_points (e : spiralenum) (s : Nat) (hs : 1 ≤ s) :
    e.n2pt (4 * s * s - 2 * s) = .ok ⟨s, s⟩ ∧
      e.pt2n ⟨s, s⟩ = ((4 * s * s - 2 * s : Nat) : Int) ∧
      e.n2pt (4 * s * s) = .ok ⟨-(s : Int), s⟩ ∧
      e.pt2n ⟨-(s : Int), s⟩ = ((4 * s * s : Nat) : Int) ∧
      e.n2pt (4 * s * s + 2 * s) = .ok ⟨-(s : Int), -(s : Int)⟩ ∧
      e.pt2n ⟨-(s : Int), -(s : Int)⟩ = ((4 * s * s + 2 * s : Nat) : Int) ∧
      e.n2pt (4 * s * s + 4 * s) = .ok ⟨s, -(s : Int)⟩ ∧
      e.pt2n ⟨s, -(s : Int)⟩ = ((4 * s * s + 4 * s : Nat) : Int) := by
  have hs1 : (1 : Int) ≤ s := by exact_mod_cast hs
  have hle : 2 * s ≤ 4 * s * s := by nlinarith
  have hc : ((4 * s * s - 2 * s : Nat) : Int) = 4 * (s : Int) * s - 2 * s := by
    rw [Nat.cast_sub hle]; push_cast; ring
  have n0 := spiral_n2pt_ring e (4 * s * s - 2 * s) (s : Int) 0 (2 * (s : Int) - 1) hs1
    (by decide) (by decide) (by omega) (by omega) (by rw [hc]; ring)
  have n1 := spiral_n2pt_ring e (4 * s * s) (s : Int) 1 (2 * (s : Int) - 1) hs1
    (by decide) (by decide) (by omega) (by omega) (by push_cast; ring)
  have n2 := spiral_n2pt_ring e (4 * s * s + 2 * s) (s : Int) 2 (2 * (s : Int) - 1) hs1
    (by decide) (by decide) (by omega) (by omega) (by push_cast; ring)
  have n3 := spiral_n2pt_ring e (4 * s * s + 4 * s) (s : Int) 3 (2 * (s : Int) - 1) hs1
    (by decide) (by decide) (by omega) (by omega) (by push_cast; ring)
  have p0 := (spiral_pt2n_ring e (s : Int) 0 (2 * (s : Int) - 1) hs1
    (by decide) (by decide) (by omega) (by omega)).1
  have p1 := (spiral_pt2n_ring e (s : Int) 1 (2 * (s : Int) - 1) hs1
    (by decide) (by decide) (by omega) (by omega)).1
  have p2 := (spiral_pt2n_ring e (s : Int) 2 (2 * (s : Int) - 1) hs1
    (by decide) (by decide) (by omega) (by omega)).1
  have p3 := (spiral_pt2n_ring e (s : Int) 3 (2 * (s : Int) - 1) hs1
    (by decide) (by decide) (by omega) (by omega)).1
  have e0 : spiralenum.ringPoint (s : Int) 0 (2 * (s : Int) - 1) = ⟨s, s⟩ := by
    rw [spiral_ringPoint_0]; congr 1; ring
  have e1 : spiralenum.ringPoint (s : Int) 1 (2 * (s : Int) - 1) = ⟨-(s : Int), s⟩ := by
    rw [spiral_ringPoint_1]; congr 1; ring
  have e2 : spiralenum.ringPoint (s : Int) 2 (2 * (s : Int) - 1)
      = ⟨-(s : Int), -(s : Int)⟩ := by
    rw [spiral_ringPoint_2]; congr 1; ring
  have e3 : spiralenum.ringPoint (s : Int) 3 (2 * (s : Int) - 1) = ⟨s, -(s : Int)⟩ := by
    rw [spiral_ringPoint_3]; congr 1; ring
  rw [e0] at n0 p0
  rw [e1] at n1 p1
  rw [e2] at n2 p2
  rw [e3] at n3 p3
  refine ⟨n0, ?_, n1, ?_, n2, ?_, n3, ?_⟩
  · rw [p0, hc]; ring
  · rw [p1]; push_cast; ring
  · rw [p2]; push_cast; ring
  · rw [p3]; push_cast; ring

/-! ## Rings and their index intervals -/

/-- C1. Zig-zag round trip: for every width `w ≥ 0` and every index `n` with
`0 ≤ n < w*w` (which is `maxiter()`), `n2pt(n)` returns a point and `pt2n` maps
it back to `n`.  For `w = 2` the points of `n = 0..3` are
`(0,0), (1,0), (1,1), (0,1)` and `pt2n((1,1)) = 2`. -/
theorem zigzag_round_trip :
    (∀ (w : Int) (n : Nat), 0 ≤ w → (n : Int) < w * w →
      (zigzagenum.mk w).maxiter = w * w ∧
      ∃ p, (zigzagenum.mk w).n2pt n = .ok p ∧ (zigzagenum.mk w).pt2n p = n) ∧
    (zigzagenum.mk 2).n2pt 0 = .ok ⟨0, 0⟩ ∧
    (zigzagenum.mk 2).n2pt 1 = .ok ⟨1, 0⟩ ∧
    (zigzagenum.mk 2).n2pt 2 = .ok ⟨1, 1⟩ ∧
    (zigzagenum.mk 2).n2pt 3 = .ok ⟨0, 1⟩ ∧
    (zigzagenum.mk 2).pt2n ⟨1, 1⟩ = 2 := by
  refine ⟨?_, by decide, by decide, by decide, by decide, by decide⟩
  intro w n hw hn
  obtain ⟨p, h1, _, h3⟩ := zigzag_left_inverse w n hw hn
  exact ⟨rfl, p, h1, h3⟩

/-- Instance of C1 at `w = 3`, `n = 5`: the hypotheses hold and the round trip
returns 5. -/
theorem zigzag_round_trip_witness :
    (0 : Int) ≤ 3 ∧ ((5 : Nat) : Int) < 3 * 3 ∧
      ∃ p, (zigzagenum.mk 3).n2pt 5 = .ok p ∧ (zigzagenum.mk 3).pt2n p = ((5 : Nat) : Int) :=
  ⟨by decide, by decide, (zigzag_round_trip.1 3 5 (by decide) (by decide)).2⟩

/-- C2. Square-spiral round trip: for every width `w ≥ 0` and every index `n`
with `0 ≤ n < ((w-1)*2+1)^2` (which is `maxiter()`), `n2pt(n)` returns a point
(it neither throws nor divides by zero) and `pt2n` maps it back to `n`.  This
includes `n = 0`, the origin, and on every ring `s ≥ 1` the four corners
`(s,s)`, `(-s,s)`, `(-s,-s)`, `(s,-s)` at the indices `4s²-2s`, `4s²`,
`4s²+2s`, `4s²+4s`. -/
theorem spiral_round_trip :
    (∀ (w : Int) (n : Nat), 0 ≤ w → (n : Int) < ((w - 1) * 2 + 1) ^ 2 →
      (spiralenum.mk w).maxiter = ((w - 1) * 2 + 1) ^ 2 ∧
      ∃ p, (spiralenum.mk w).n2pt n = .ok p ∧ (spiralenum.mk w).pt2n p = n) ∧
    (∀ w : Int, (spiralenum.mk w).n2pt 0 = .ok ⟨0, 0⟩ ∧
      (spiralenum.mk w).pt2n ⟨0, 0⟩ = 0) ∧
    (∀ (w : Int) (s : Nat), 1 ≤ s →
      (spiralenum.mk w).n2pt (4 * s * s - 2 * s) = .ok ⟨s, s⟩ ∧
      (spiralenum.mk w).pt2n ⟨s, s⟩ = ((4 * s * s - 2 * s : Nat) : Int) ∧
      (spiralenum.mk w).n2pt (4 * s * s) = .ok ⟨-(s : Int), s⟩ ∧
      (spiralenum.mk w).pt2n ⟨-(s : Int), s⟩ = ((4 * s * s : Nat) : Int) ∧
      (spiralenum.mk w).n2pt (4 * s * s + 2 * s) = .ok ⟨-(s : Int), -(s : Int)⟩ ∧
      (spiralenum.mk w).pt2n ⟨-(s : Int), -(s : Int)⟩ = ((4 * s * s + 2 * s : Nat) : Int) ∧
      (spiralenum.mk w).n2pt (4 * s * s + 4 * s) = .ok ⟨s, -(s : Int)⟩ ∧
      (spiralenum.mk w).pt2n ⟨s, -(s : Int)⟩ = ((4 * s * s + 4 * s : Nat) : Int)) := by
  refine ⟨?_, ?_, ?_⟩
  · intro w n _ _
    obtain ⟨p, h1, h2, _⟩ := spiral_left_inverse w n
    exact ⟨by rw [spiralenum.maxiter, intsqr, sq], p, h1, h2⟩
  · intro w
    exact ⟨spiral_n2pt_zero _, spiral_pt2n_origin _⟩
  · intro w s hs
    exact spiral_corner_points (spiralenum.mk w) s hs

/-- Instances of C2 at `w = 2`: the hypotheses hold at `n = 0` (the origin) and
at `n = 8`, the last index, whose point is the corner `(1,-1)` of ring 1. -/
theorem spiral_round_trip_witness :
    (0 : Int) ≤ 2 ∧ ((8 : Nat) : Int) < ((2 - 1) * 2 + 1) ^ 2 ∧
    (∃ p, (spiralenum.mk 2).n2pt 0 = .ok p ∧ (spiralenum.mk 2).pt2n p = ((0 : Nat) : Int)) ∧
    (∃ p, (spiralenum.mk 2).n2pt 8 = .ok p ∧ (spiralenum.mk 2).pt2n p = ((8 : Nat) : Int)) ∧
    (spiralenum.mk 2).pt2n ⟨1, -1⟩ = 8 :=
  ⟨by decide, by decide,
   (spiral_round_trip.1 2 0 (by decide) (by decide)).2,
   (spiral_round_trip.1 2 8 (by decide) (by decide)).2,
   by decide⟩

/-- C3. Diamond round trip: for every width `w ≥ 0` and every index `n` with
`0 ≤ n < 2*w*(w-1)+1` (which is `maxiter()`), `n2pt(n)` returns a point and
`pt2n` maps it back to `n`.  This includes `n = 0` and, on every ring `i ≥ 1`,
the axis points `(0,-i)` (index `2i²`, produced on edge 1, read back by sign
case 2 with offset `-1`) and `(-i,0)` (index `2i²+i`, produced on edge 2, read
back by sign case 3 with offset `-1`). -/
theorem diamond_round_trip :
    (∀ (w : Int) (n : Nat), 0 ≤ w → (n : Int) < 2 * w * (w - 1) + 1 →
      (diamondenum.mk w).maxiter = 2 * w * (w - 1) + 1 ∧
      ∃ p, (diamondenum.mk w).n2pt n = .ok p ∧ (diamondenum.mk w).pt2n p = .ok (n : Int)) ∧
    (∀ w : Int, (diamondenum.mk w).n2pt 0 = .ok ⟨0, 0⟩ ∧
      (diamondenum.mk w).pt2n ⟨0, 0⟩ = .ok 0) ∧
    (∀ (w : Int) (i : Nat), 1 ≤ i →
      (diamondenum.mk w).n2pt (2 * i * i) = .ok (diamondenum.ringPoint i 1 (i - 1)) ∧
      (diamondenum.mk w).n2pt (2 * i * i) = .ok ⟨0, -(i : Int)⟩ ∧
      (diamondenum.mk w).pt2n ⟨0, -(i : Int)⟩ = .ok (2 * (i : Int) + (-1) +
        (2 * intsqr (i : Int) - 2 * (i : Int) + 1)) ∧
      (diamondenum.mk w).pt2n ⟨0, -(i : Int)⟩ = .ok ((2 * i * i : Nat) : Int) ∧
      (diamondenum.mk w).n2pt (2 * i * i + i) = .ok (diamondenum.ringPoint i 2 (i - 1)) ∧
      (diamondenum.mk w).n2pt (2 * i * i + i) = .ok ⟨-(i : Int), 0⟩ ∧
      (diamondenum.mk w).pt2n ⟨-(i : Int), 0⟩ = .ok (3 * (i : Int) + (-1) +
        (2 * intsqr (i : Int) - 2 * (i : Int) + 1)) ∧
      (diamondenum.mk w).pt2n ⟨-(i : Int), 0⟩ = .ok ((2 * i * i + i : Nat) : Int)) := by
  refine ⟨?_, ?_, ?_⟩
  · intro w n _ _
    obtain ⟨p, h1, h2, _⟩ := diamond_left_inverse w n
    exact ⟨rfl, p, h1, h2⟩
  · intro w
    exact ⟨diamond_n2pt_zero _, diamond_pt2n_origin _⟩
  · intro w i hi
    exact diamond_axis_points (diamondenum.mk w) i hi

/-- Instance of C3 at `w = 3`, `n = 8`, the axis point `(0,-2)`. -/
theorem diamond_round_trip_witness :
    (0 : Int) ≤ 3 ∧ ((8 : Nat) : Int) < 2 * 3 * (3 - 1) + 1 ∧
      (∃ p, (diamondenum.mk 3).n2pt 8 = .ok p ∧
        (diamondenum.mk 3).pt2n p = .ok ((8 : Nat) : Int)) ∧
      (diamondenum.mk 3).pt2n ⟨0, -2⟩ = .ok 8 :=
  ⟨by decide, by decide, (diamond_round_trip.1 3 8 (by decide) (by decide)).2, by decide⟩

/-- C4. Triangle round trip: for every width `w ≥ 0` and every index `n` with
`0 ≤ n < w*(w+1)/2` (which is `maxiter()`), `pt2n(n2pt(n)) = n`. -/
theorem triangle_round_trip (w : Int) (n : Nat) (_hw : 0 ≤ w)
    (_hn : (n : Int) < w * (w + 1) / 2) :
    (triangleenum.mk w).maxiter = w * (w + 1) / 2 ∧
    (triangleenum.mk w).pt2n ((triangleenum.mk w).n2pt n) = n :=
  ⟨by rw [triangleenum.maxiter, tdiv_tri], (triangle_left_inverse w n).1⟩

/-- Instance of C4 at `w = 3`, `n = 4`. -/
theorem triangle_round_trip_witness :
    (0 : Int) ≤ 3 ∧ ((4 : Nat) : Int) < 3 * (3 + 1) / 2 ∧
      (triangleenum.mk 3).pt2n ((triangleenum.mk 3).n2pt 4) = ((4 : Nat) : Int) :=
  ⟨by decide, by decide, (triangle_round_trip 3 4 (by decide) (by decide)).2⟩

/-! ## The enumerated sets -/

/-- The first six points of the triangle enumerator, as in the diagram of the
source: `(0,0), (1,0), (0,1), (0,2), (1,1), (2,0)`. -/
theorem triangle_first_points (e : triangleenum) :
    e.n2pt 0 = ⟨0, 0⟩ ∧ e.n2pt 1 = ⟨1, 0⟩ ∧ e.n2pt 2 = ⟨0, 1⟩ ∧
      e.n2pt 3 = ⟨0, 2⟩ ∧ e.n2pt 4 = ⟨1, 1⟩ ∧ e.n2pt 5 = ⟨2, 0⟩ := by
  refine ⟨?_, ?_, ?_, ?_, ?_, ?_⟩
  · exact triangle_n2pt_diag e 0 0 0 (by decide) (by decide) (by decide) (by decide)
  · exact triangle_n2pt_diag e 1 1 0 (by decide) (by decide) (by decide) (by decide)
  · exact triangle_n2pt_diag e 2 1 1 (by decide) (by decide) (by decide) (by decide)
  · exact triangle_n2pt_diag e 3 2 0 (by decide) (by decide) (by decide) (by decide)
  · exact triangle_n2pt_diag e 4 2 1 (by decide) (by decide) (by decide) (by decide)
  · exact triangle_n2pt_diag e 5 2 2 (by decide) (by decide) (by decide) (by decide)

/-- C9, as stated, fails: `triangleenum(3).n2pt(1)` is `(1,0)`, not `(0,1)`, so
the sequence `n2pt(0..3)` is not `(0,0), (0,1), (1,0), (1,1)`. -/
theorem triangle_scenario_counterexample :
    ¬ ((triangleenum.mk 3).maxiter = 6 ∧
      (triangleenum.mk 3).n2pt 0 = ⟨0, 0⟩ ∧ (triangleenum.mk 3).n2pt 1 = ⟨0, 1⟩ ∧
      (triangleenum.mk 3).n2pt 2 = ⟨1, 0⟩ ∧ (triangleenum.mk 3).n2pt 3 = ⟨1, 1⟩) := by
  rintro ⟨_, _, h1, _, _⟩
  rw [(triangle_first_points (triangleenum.mk 3)).2.1] at h1
  exact absurd h1 (by decide)

/-- C9, amended. `triangleenum(3).maxiter() = 6` and the sequence
`n2pt(0), ..., n2pt(5)` is `(0,0), (1,0), (0,1), (0,2), (1,1), (2,0)`: odd
diagonals run from high `x` to low `x`, even diagonals from low to high. -/
theorem triangle_scenario :
    (triangleenum.mk 3).maxiter = 6 ∧
      (triangleenum.mk 3).n2pt 0 = ⟨0, 0⟩ ∧ (triangleenum.mk 3).n2pt 1 = ⟨1, 0⟩ ∧
      (triangleenum.mk 3).n2pt 2 = ⟨0, 1⟩ ∧ (triangleenum.mk 3).n2pt 3 = ⟨0, 2⟩ ∧
      (triangleenum.mk 3).n2pt 4 = ⟨1, 1⟩ ∧ (triangleenum.mk 3).n2pt 5 = ⟨2, 0⟩ :=
  ⟨by decide, triangle_first_points (triangleenum.mk 3)⟩

/-! ## Points outside the shape -/

/-- The locals of `spiralenum::n2pt` at an index with ring coordinates
`(s, q, m)`: the ring before the increment is `s-1`, the remainder is
`2sq+m`, the quadrant is `q` and the offset is `m`. -/
theorem spiral_locals (n : Nat) (s q m : Int) (hs : 1 ≤ s)
    (hq0 : 0 ≤ q) (hq1 : q < 4) (hm0 : 0 ≤ m) (hm1 : m < 2 * s)
    (hn : (n : Int) = (2 * s - 1) * (2 * s - 1) + (2 * s * q + m)) :
    Int.tdiv (intsqrt (n : Int) - 1) 2 = s - 1 ∧
      (n : Int) - intsqr ((s - 1) * 2 + 1) = 2 * s * q + m ∧
      Int.tdiv (2 * s * q + m) (2 * s) = q ∧ Int.tmod (2 * s * q + m) (2 * s) = m := by
  have hqm : 0 ≤ 2 * s * q + m := by positivity
  have hqm1 : 2 * s * q + m < 8 * s := by nlinarith
  have hsq := intsqrt_bounds (n : Int) (2 * s - 1) (2 * s + 1) (by omega) (by nlinarith)
    (by omega)
  have ht0 : 0 ≤ intsqrt (n : Int) - 1 := by omega
  refine ⟨?_, ?_, tdiv_tmod_of_decomp (2 * s) q m (by omega) hq0 hm0 hm1⟩
  · rw [Int.tdiv_eq_ediv ht0 (by decide)]; omega
  · unfold intsqr; rw [hn]; ring

/-- The locals of `diamondenum::n2pt` at an index with ring coordinates
`(i, q, m)`. -/
theorem diamond_locals (n : Nat) (i q m : Int) (hi : 1 ≤ i)
    (hq0 : 0 ≤ q) (hq1 : q < 4) (hm0 : 0 ≤ m) (hm1 : m < i)
    (hn : (n : Int) = (2 * (i * i) - 2 * i + 1) + (i * q + m)) :
    Int.tdiv (1 + intsqrt (2 * (n : Int) - 1)) 2 = i ∧
      (n : Int) - (2 * intsqr i - 2 * i + 1) = i * q + m ∧
      Int.tdiv (i * q + m) i = q ∧ Int.tmod (i * q + m) i = m := by
  have hqm : 0 ≤ i * q + m := by positivity
  have hqm1 : i * q + m < 4 * i := by nlinarith
  have hsq := intsqrt_bounds (2 * (n : Int) - 1) (2 * i - 1) (2 * i + 1) (by nlinarith)
    (by nlinarith) (by omega)
  have ht0 : 0 ≤ 1 + intsqrt (2 * (n : Int) - 1) := by omega
  refine ⟨?_, ?_, tdiv_tmod_of_decomp i q m (by omega) hq0 hm0 hm1⟩
  · rw [Int.tdiv_eq_ediv ht0 (by decide)]; omega
  · unfold intsqr; rw [hn]; ring

theorem spiral_n2pt_total (e : spiralenum) (n : Nat) : ∃ p, e.n2pt n = .ok p := by
  obtain ⟨p, h, _⟩ := spiral_left_inverse e._w n
  exact ⟨p, h⟩

theorem diamond_n2pt_total (e : diamondenum) (n : Nat) : ∃ p, e.n2pt n = .ok p := by
  obtain ⟨p, h, _⟩ := diamond_left_inverse e._w n
  exact ⟨p, h⟩

/-- `zigzagenum::n2pt` divides by `_w` only after the test `_w == 0`. -/
theorem zigzag_n2pt_total (e : zigzagenum) (n : Nat) :
    (e._w = 0 → e.n2pt n = .ok ⟨0, 0⟩) ∧ ∃ p, e.n2pt n = .ok p := by
  by_cases hw : e._w = 0
  · have h : e.n2pt n = .ok ⟨0, 0⟩ := by simp [zigzagenum.n2pt, hw]
    exact ⟨fun _ => h, _, h⟩
  · refine ⟨fun h => absurd h hw, ?_⟩
    simp only [zigzagenum.n2pt, if_neg hw, idiv_ok _ _ hw, imod_ok _ _ hw, bind, Except.bind,
      pure, Except.pure]
    split <;> exact ⟨_, rfl⟩

/-- The diagonal index of `triangleenum::n2pt` is the triangular root. -/
theorem triangle_locals (n : Nat) (i j : Int) (hi : 0 ≤ i) (hj0 : 0 ≤ j) (hj1 : j ≤ i)
    (hn : (n : Int) = i * (i + 1) / 2 + j) :
    Int.tdiv (-1 + intsqrt (1 + 8 * (n : Int))) 2 = i := by
  have h2 := two_mul_tri i
  have hsq := intsqrt_bounds (1 + 8 * (n : Int)) (2 * i + 1) (2 * i + 3) (by nlinarith)
    (by nlinarith) (by omega)
  have ht0 : 0 ≤ -1 + intsqrt (1 + 8 * (n : Int)) := by omega
  rw [Int.tdiv_eq_ediv ht0 (by decide)]; omega

/-- Triangular numbers are monotone: `k(k+1)/2 ≤ n < (i+1)(i+2)/2` forces `k ≤ i`. -/
theorem tri_root_largest (n i k : Int) (hi : 0 ≤ i) (hn : n < (i + 1) * (i + 1 + 1) / 2)
    (hk : k * (k + 1) / 2 ≤ n) : k ≤ i := by
  by_contra hc
  have h1 := two_mul_tri (i + 1)
  have h2 := two_mul_tri k
  have h3 : (i + 1) * (i + 1) ≤ k * k := mul_self_le_mul_self (by omega) (by omega)
  nlinarith

/-! ## Unreachable errors -/

/-- C19. The `throw "invalid q"` statements are unreachable and `n2pt` is total.
For every `n ≥ 1` the locals of `spiralenum::n2pt` satisfy `2*s ≥ 1` (with `s`
the incremented ring) and `q ∈ {0,1,2,3}`, those of `diamondenum::n2pt` satisfy
`i ≥ 1` and `q ∈ {0,1,2,3}`, so both divisions succeed and a point is returned
(for `n = 0` the origin is returned before any division).
`zigzagenum::n2pt` returns a point for every `w ≥ 0`, the origin when `w = 0`.
For every point the four sign cases of `diamondenum::pt2n` are exhaustive and
an index is returned. -/
theorem invalid_q_unreachable :
    (∀ (w : Int) (n : Nat), 1 ≤ n → ∀ s r : Int,
      s = Int.tdiv (intsqrt (n : Int) - 1) 2 → r = (n : Int) - intsqr (s * 2 + 1) →
      1 ≤ 2 * (s + 1) ∧
      (∃ q, idiv r (2 * (s + 1)) = .ok q ∧ (q = 0 ∨ q = 1 ∨ q = 2 ∨ q = 3)) ∧
      (∃ m, imod r (2 * (s + 1)) = .ok m) ∧
      ∃ p, (spiralenum.mk w).n2pt n = .ok p) ∧
    (∀ w : Int, (spiralenum.mk w).n2pt 0 = .ok ⟨0, 0⟩) ∧
    (∀ (w : Int) (n : Nat), 1 ≤ n → ∀ i j : Int,
      i = Int.tdiv (1 + intsqrt (2 * (n : Int) - 1)) 2 →
      j = (n : Int) - (2 * intsqr i - 2 * i + 1) →
      1 ≤ i ∧
      (∃ q, idiv j i = .ok q ∧ (q = 0 ∨ q = 1 ∨ q = 2 ∨ q = 3)) ∧
      (∃ m, imod j i = .ok m) ∧
      ∃ p, (diamondenum.mk w).n2pt n = .ok p) ∧
    (∀ w : Int, (diamondenum.mk w).n2pt 0 = .ok ⟨0, 0⟩) ∧
    (∀ (w : Int) (n : Nat), 0 ≤ w →
      (∃ p, (zigzagenum.mk w).n2pt n = .ok p) ∧
      (w = 0 → (zigzagenum.mk w).n2pt n = .ok ⟨0, 0⟩)) ∧
    (∀ (w : Int) (p : point),
      ((p.x > 0 ∧ p.y ≥ 0) ∨ (p.x > 0 ∧ p.y < 0) ∨ (p.x ≤ 0 ∧ p.y < 0) ∨
        (p.x ≤ 0 ∧ p.y ≥ 0)) ∧
      ∃ k, (diamondenum.mk w).pt2n p = .ok k) := by
  refine ⟨?_, fun w => spiral_n2pt_zero _, ?_, fun w => diamond_n2pt_zero _, ?_, ?_⟩
  · intro w n hn s r hs hr
    obtain ⟨s1, q, m, h1, hq0, hq1, hm0, hm1, hdec⟩ := spiral_index_decomp n (by omega)
    obtain ⟨l1, l2, l3, l4⟩ := spiral_locals n s1 q m h1 hq0 hq1 hm0 hm1 hdec
    have es : s = s1 - 1 := hs.trans l1
    subst es
    have er : r = 2 * s1 * q + m := hr.trans l2
    subst er
    have e2 : 2 * (s1 - 1 + 1) = 2 * s1 := by ring
    rw [e2, idiv_ok _ _ (by omega), imod_ok _ _ (by omega), l3]
    exact ⟨by omega, ⟨q, rfl, by omega⟩, ⟨_, rfl⟩, spiral_n2pt_total _ n⟩
  · intro w n hn i j hi hj
    obtain ⟨i1, q, m, h1, hq0, hq1, hm0, hm1, hdec⟩ := diamond_index_decomp n (by omega)
    obtain ⟨l1, l2, l3, l4⟩ := diamond_locals n i1 q m h1 hq0 hq1 hm0 hm1 hdec
    have ei : i = i1 := hi.trans l1
    subst ei
    have ej : j = i * q + m := hj.trans l2
    subst ej
    rw [idiv_ok _ _ (by omega), imod_ok _ _ (by omega), l3]
    exact ⟨h1, ⟨q, rfl, by omega⟩, ⟨_, rfl⟩, diamond_n2pt_total _ n⟩
  · intro w n _
    obtain ⟨h0, h1⟩ := zigzag_n2pt_total (zigzagenum.mk w) n
    exact ⟨h1, h0⟩
  · intro w p
    refine ⟨?_, diamond_pt2n_total _ p⟩
    omega

/-- Instances of C19: `spiralenum(3).n2pt(5)` has `s = 0`, `r = 4`, divisor 2 and
quadrant 2; `zigzagenum(0).n2pt(7)` is the origin. -/
theorem invalid_q_unreachable_witness :
    (1 ≤ 5 ∧ (0 : Int) = Int.tdiv (intsqrt ((5 : Nat) : Int) - 1) 2 ∧
      (4 : Int) = ((5 : Nat) : Int) - intsqr (0 * 2 + 1) ∧
      idiv 4 (2 * (0 + 1)) = .ok 2 ∧
      ∃ p, (spiralenum.mk 3).n2pt 5 = .ok p) ∧
    (zigzagenum.mk 0).n2pt 7 = .ok ⟨0, 0⟩ :=
  have h0 : (0 : Int) = Int.tdiv (intsqrt ((5 : Nat) : Int) - 1) 2 := by
    rw [intsqrt_eq ((5 : Nat) : Int) 2 (by decide) (by decide) (by decide)]; decide
  ⟨⟨by decide, h0, by decide, by decide,
      (invalid_q_unreachable.1 3 5 (by decide) 0 4 h0 (by decide)).2.2.2⟩,
    (invalid_q_unreachable.2.2.2.2.1 0 7 (by decide)).2 rfl⟩

/-- C20. The diagonal index of `triangleenum::n2pt` is the triangular root: for
every `n`, `i = (-1 + intsqrt(1+8n))/2` is non-negative and is the largest
integer with `i(i+1)/2 ≤ n`; `j = n - i(i+1)/2` satisfies `0 ≤ j ≤ i`; the
returned point has `x ≥ 0`, `y ≥ 0`, `x + y = i`, with `x = j` (increasing with
`n`) on even diagonals and `x = i - j` (decreasing) on odd ones. -/
theorem triangle_diagonal_index (w : Int) (n : Nat) (i j : Int)
    (hi : i = Int.tdiv (-1 + intsqrt (1 + 8 * (n : Int))) 2)
    (hj : j = (n : Int) - Int.tdiv (i * (i + 1)) 2) :
    0 ≤ i ∧ i * (i + 1) / 2 ≤ (n : Int) ∧ (n : Int) < (i + 1) * (i + 1 + 1) / 2 ∧
      (∀ k : Int, k * (k + 1) / 2 ≤ (n : Int) → k ≤ i) ∧
      Int.tdiv (i * (i + 1)) 2 = i * (i + 1) / 2 ∧ 2 * (i * (i + 1) / 2) = i * (i + 1) ∧
      0 ≤ j ∧ j ≤ i ∧
      0 ≤ ((triangleenum.mk w).n2pt n).x ∧ 0 ≤ ((triangleenum.mk w).n2pt n).y ∧
      ((triangleenum.mk w).n2pt n).x + ((triangleenum.mk w).n2pt n).y = i ∧
      (i % 2 = 0 → (triangleenum.mk w).n2pt n = ⟨j, i - j⟩) ∧
      (i % 2 = 1 → (triangleenum.mk w).n2pt n = ⟨i - j, j⟩) := by
  obtain ⟨i1, j1, h1, hj0, hj1, hdec⟩ := triangle_index_decomp n
  have l1 := triangle_locals n i1 j1 h1 hj0 hj1 hdec
  have ei : i = i1 := hi.trans l1
  subst ei
  have ej : j = j1 := by rw [hj, tdiv_tri]; omega
  subst ej
  have t1 := two_mul_tri i
  have t2 := two_mul_tri (i + 1)
  have hlt : (n : Int) < (i + 1) * (i + 1 + 1) / 2 := by
    have : (i + 1) * (i + 1 + 1) = i * (i + 1) + 2 * (i + 1) := by ring
    omega
  have hpt := triangle_n2pt_diag (triangleenum.mk w) n i j h1 hj0 hj1 hdec
  refine ⟨h1, by omega, hlt, fun k hk => tri_root_largest n i k h1 hlt hk, tdiv_tri i, t1,
    hj0, hj1, ?_, ?_, ?_, ?_, ?_⟩
  · rw [hpt]; split <;> simp only <;> omega
  · rw [hpt]; split <;> simp only <;> omega
  · rw [hpt]; split <;> simp only <;> omega
  · intro he; rw [hpt, if_neg (by omega)]
  · intro ho; rw [hpt, if_pos ho]

/-- Instance of C20 at `n = 4`: `i = 2`, `j = 1`, the point is `(1,1)`. -/
theorem triangle_diagonal_index_witness :
    (2 : Int) = Int.tdiv (-1 + intsqrt (1 + 8 * ((4 : Nat) : Int))) 2 ∧
      (1 : Int) = ((4 : Nat) : Int) - Int.tdiv (2 * (2 + 1)) 2 ∧
      (triangleenum.mk 3).n2pt 4 = ⟨1, 2 - 1⟩ :=
  have h0 : (2 : Int) = Int.tdiv (-1 + intsqrt (1 + 8 * ((4 : Nat) : Int))) 2 := by
    rw [intsqrt_eq (1 + 8 * ((4 : Nat) : Int)) 5 (by decide) (by decide) (by decide)]; decide
  ⟨h0, by decide,
    (triangle_diagonal_index 3 4 2 1 h0 (by decide)).2.2.2.2.2.2.2.2.2.2.2.1 (by decide)⟩

/-! ## The two loops that list the points -/

/-- The counting loop of `test`, run from index `i` with `k` indices left and at
least `k` units of fuel, appends the points of `i, ..., i+k-1` and stops. -/
theorem ptsLoop_run (e : enumbase) (f : Nat → point) (hf : ∀ n, e.n2pt n = .ok (f n)) :
    ∀ (k fuel i : Nat) (acc : List point), (i : Int) + k = e.maxiter → k ≤ fuel →
      test.ptsLoop e fuel i acc = .ok (some (acc ++ (List.range' i k).map f)) := by
  intro k
  induction k with
  | zero =>
    intro fuel i acc hi _
    have hlt : ¬ ((i : Int) < e.maxiter) := by omega
    cases fuel <;> simp [test.ptsLoop, hlt]
  | succ k ih =>
    intro fuel i acc hi hfuel
    obtain ⟨fuel1, rfl⟩ : ∃ m, fuel = m + 1 := ⟨fuel - 1, by omega⟩
    have hlt : (i : Int) < e.maxiter := by omega
    have hstep := ih fuel1 (i + 1) (acc ++ [f i]) (by push_cast; omega) (by omega)
    have hcast : ((i + 1 : Nat) : Int) = (i : Int) + 1 := by push_cast; rfl
    rw [hcast] at hstep
    simp only [test.ptsLoop, if_pos hlt, Int.toNat_ofNat, hf, bind, Except.bind]
    rw [hstep, List.range'_succ, List.map_cons, List.append_assoc]
    rfl

/-- The iterator loop of `test`, run from the iterator at index `i` with `k`
indices left before `end()` and at least `k` units of fuel, appends the points of
`i, ..., i+k-1` and stops. -/
theorem genLoop_run (e : enumbase) (f : Nat → point) (hf : ∀ n, e.n2pt n = .ok (f n)) :
    ∀ (k fuel i : Nat) (acc : List point), (i : Int) + k = e.maxiter → k ≤ fuel →
      test.genLoop e fuel ⟨(i : Int), e⟩ acc = .ok (some (acc ++ (List.range' i k).map f)) := by
  intro k
  induction k with
  | zero =>
    intro fuel i acc hi _
    have hne : ((i : Int) != e.maxiter) = false := by
      have : (i : Int) = e.maxiter := by omega
      simp [this]
    cases fuel <;> simp [test.genLoop, enumbase.iter.ne, enumbase.end, hne]
  | succ k ih =>
    intro fuel i acc hi hfuel
    obtain ⟨fuel1, rfl⟩ : ∃ m, fuel = m + 1 := ⟨fuel - 1, by omega⟩
    have hne : ((i : Int) != e.maxiter) = true := by
      have : (i : Int) ≠ e.maxiter := by omega
      simp [this]
    have hstep := ih fuel1 (i + 1) (acc ++ [f i]) (by push_cast; omega) (by omega)
    have hcast : ((i + 1 : Nat) : Int) = (i : Int) + 1 := by push_cast; rfl
    rw [hcast] at hstep
    simp only [test.genLoop, enumbase.iter.ne, enumbase.end, hne, if_true,
      enumbase.iter.deref, enumbase.getpos, enumbase.iter.incr, Int.toNat_ofNat, hf, bind,
      Except.bind]
    rw [hstep, List.range'_succ, List.map_cons, List.append_assoc]
    rfl

/-- For an enumerator whose `n2pt` always returns a point and whose `maxiter()`
is not negative, the iterator loop and the counting loop both end, with the
list `n2pt(0), ..., n2pt(maxiter()-1)`. -/
theorem enum_sequences (e : enumbase) (f : Nat → point) (hf : ∀ n, e.n2pt n = .ok (f n))
    (hm : 0 ≤ e.maxiter) :
    ((List.range e.maxiter.toNat).map f).length = e.maxiter.toNat ∧
      e.specSequence = ((List.range e.maxiter.toNat).map f).map Except.ok ∧
      (∀ fuel : Nat, e.maxiter.toNat ≤ fuel →
        test.genLoop e fuel e.begin [] = .ok (some ((List.range e.maxiter.toNat).map f))) ∧
      (∀ fuel : Nat, e.maxiter.toNat ≤ fuel →
        test.ptsLoop e fuel 0 [] = .ok (some ((List.range e.maxiter.toNat).map f))) := by
  have hN : ((0 : Nat) : Int) + (e.maxiter.toNat : Nat) = e.maxiter := by
    rw [Int.toNat_of_nonneg hm]; simp
  refine ⟨by simp, ?_, ?_, ?_⟩
  · simp only [enumbase.specSequence, List.map_map]
    apply List.map_congr_left
    intro n _
    exact hf n
  · intro fuel hfuel
    have := genLoop_run e f hf e.maxiter.toNat fuel 0 [] hN hfuel
    rw [List.range_eq_range']
    simpa [enumbase.begin] using this
  · intro fuel hfuel
    have := ptsLoop_run e f hf e.maxiter.toNat fuel 0 [] hN hfuel
    rw [List.range_eq_range']
    simpa using this

theorem spiral_maxiter_nonneg (e : spiralenum) : 0 ≤ e.maxiter :=
  mul_self_nonneg _

theorem zigzag_maxiter_nonneg (e : zigzagenum) : 0 ≤ e.maxiter :=
  mul_self_nonneg _

theorem triangle_maxiter_nonneg (e : triangleenum) : 0 ≤ e.maxiter := by
  rw [triangleenum.maxiter, tdiv_tri]
  exact Int.ediv_nonneg (mul_succ_nonneg _) (by decide)

theorem diamond_maxiter_pos (e : diamondenum) : 1 ≤ e.maxiter := by
  have h := mul_succ_nonneg (e._w - 1)
  have h2 : (e._w - 1) * (e._w - 1 + 1) = e._w * (e._w - 1) := by ring
  rw [diamondenum.maxiter]
  nlinarith

theorem pt_spec (e : enumbase) (n : Nat) (h : ∃ p, e.n2pt n = .ok p) :
    e.n2pt n = .ok (e.pt n) := by
  obtain ⟨p, hp⟩ := h
  simp only [enumbase.pt, hp]

theorem spiral_pt_spec (e : spiralenum) (n : Nat) :
    e.toEnumbase.n2pt n = .ok (e.toEnumbase.pt n) :=
  pt_spec _ n (spiral_n2pt_total e n)

theorem zigzag_pt_spec (e : zigzagenum) (n : Nat) :
    e.toEnumbase.n2pt n = .ok (e.toEnumbase.pt n) :=
  pt_spec _ n (zigzag_n2pt_total e n).2

theorem triangle_pt_spec (e : triangleenum) (n : Nat) :
    e.toEnumbase.n2pt n = .ok (e.toEnumbase.pt n) :=
  pt_spec _ n ⟨_, rfl⟩

theorem diamond_pt_spec (e : diamondenum) (n : Nat) :
    e.toEnumbase.n2pt n = .ok (e.toEnumbase.pt n) :=
  pt_spec _ n (diamond_n2pt_total e n)

/-- Both loops of `test` return `test.pts`, for each of the four enumerators. -/
theorem variant_sequences (w : Int) (e : enumbase)
    (he : e = (spiralenum.mk w).toEnumbase ∨ e = (zigzagenum.mk w).toEnumbase ∨
      e = (triangleenum.mk w).toEnumbase ∨ e = (diamondenum.mk w).toEnumbase) :
    0 ≤ e.maxiter ∧ (∀ n, e.n2pt n = .ok (e.pt n)) ∧
      (test.pts e).length = e.maxiter.toNat ∧
      e.specSequence = (test.pts e).map Except.ok ∧
      (∀ fuel : Nat, e.maxiter.toNat ≤ fuel →
        test.genLoop e fuel e.begin [] = .ok (some (test.pts e))) ∧
      (∀ fuel : Nat, e.maxiter.toNat ≤ fuel →
        test.ptsLoop e fuel 0 [] = .ok (some (test.pts e))) := by
  have key : 0 ≤ e.maxiter ∧ ∀ n, e.n2pt n = .ok (e.pt n) := by
    rcases he with rfl | rfl | rfl | rfl
    · exact ⟨spiral_maxiter_nonneg _, spiral_pt_spec _⟩
    · exact ⟨zigzag_maxiter_nonneg _, zigzag_pt_spec _⟩
    · exact ⟨triangle_maxiter_nonneg _, triangle_pt_spec _⟩
    · exact ⟨le_trans (by decide) (diamond_maxiter_pos _), diamond_pt_spec _⟩
  exact ⟨key.1, key.2, enum_sequences e e.pt key.2 key.1⟩

/-! ## The sequence adapter -/

/-- C17. Width-0 boundary: `spiralenum(0)` and `diamondenum(0)` have
`maxiter() = 1` and their sequence (direct indexing, counting loop and iterator
loop alike) is exactly `[(0,0)]`; `zigzagenum(0)` and `triangleenum(0)` have
`maxiter() = 0` and an empty sequence. -/
theorem width_zero_boundary :
    ((spiralenum.mk 0).maxiter = 1 ∧
      (spiralenum.mk 0).toEnumbase.specSequence = [.ok ⟨0, 0⟩] ∧
      (∀ fuel : Nat, 1 ≤ fuel →
        test.genLoop (spiralenum.mk 0).toEnumbase fuel (spiralenum.mk 0).toEnumbase.begin []
          = .ok (some [⟨0, 0⟩])) ∧
      (∀ fuel : Nat, 1 ≤ fuel →
        test.ptsLoop (spiralenum.mk 0).toEnumbase fuel 0 [] = .ok (some [⟨0, 0⟩]))) ∧
    ((diamondenum.mk 0).maxiter = 1 ∧
      (diamondenum.mk 0).toEnumbase.specSequence = [.ok ⟨0, 0⟩] ∧
      (∀ fuel : Nat, 1 ≤ fuel →
        test.genLoop (diamondenum.mk 0).toEnumbase fuel (diamondenum.mk 0).toEnumbase.begin []
          = .ok (some [⟨0, 0⟩])) ∧
      (∀ fuel : Nat, 1 ≤ fuel →
        test.ptsLoop (diamondenum.mk 0).toEnumbase fuel 0 [] = .ok (some [⟨0, 0⟩]))) ∧
    ((zigzagenum.mk 0).maxiter = 0 ∧
      (zigzagenum.mk 0).toEnumbase.specSequence = [] ∧
      (∀ fuel : Nat,
        test.genLoop (zigzagenum.mk 0).toEnumbase fuel (zigzagenum.mk 0).toEnumbase.begin []
          = .ok (some [])) ∧
      (∀ fuel : Nat,
        test.ptsLoop (zigzagenum.mk 0).toEnumbase fuel 0 [] = .ok (some []))) ∧
    ((triangleenum.mk 0).maxiter = 0 ∧
      (triangleenum.mk 0).toEnumbase.specSequence = [] ∧
      (∀ fuel : Nat,
        test.genLoop (triangleenum.mk 0).toEnumbase fuel
          (triangleenum.mk 0).toEnumbase.begin [] = .ok (some [])) ∧
      (∀ fuel : Nat,
        test.ptsLoop (triangleenum.mk 0).toEnumbase fuel 0 [] = .ok (some []))) := by
  have hs := variant_sequences 0 (spiralenum.mk 0).toEnumbase (Or.inl rfl)
  have hz := variant_sequences 0 (zigzagenum.mk 0).toEnumbase (Or.inr (Or.inl rfl))
  have ht := variant_sequences 0 (triangleenum.mk 0).toEnumbase (Or.inr (Or.inr (Or.inl rfl)))
  have hd := variant_sequences 0 (diamondenum.mk 0).toEnumbase (Or.inr (Or.inr (Or.inr rfl)))
  have ps : test.pts (spiralenum.mk 0).toEnumbase = [⟨0, 0⟩] := by decide
  have pz : test.pts (zigzagenum.mk 0).toEnumbase = [] := by decide
  have pt : test.pts (triangleenum.mk 0).toEnumbase = [] := by decide
  have pd : test.pts (diamondenum.mk 0).toEnumbase = [⟨0, 0⟩] := by decide
  have ms : (spiralenum.mk 0).toEnumbase.maxiter.toNat = 1 := by decide
  have mz : (zigzagenum.mk 0).toEnumbase.maxiter.toNat = 0 := by decide
  have mt : (triangleenum.mk 0).toEnumbase.maxiter.toNat = 0 := by decide
  have md : (diamondenum.mk 0).toEnumbase.maxiter.toNat = 1 := by decide
  rw [ps, ms] at hs
  rw [pz, mz] at hz
  rw [pt, mt] at ht
  rw [pd, md] at hd
  exact ⟨⟨by decide, hs.2.2.2.1, hs.2.2.2.2.1, hs.2.2.2.2.2⟩,
    ⟨by decide, hd.2.2.2.1, hd.2.2.2.2.1, hd.2.2.2.2.2⟩,
    ⟨by decide, hz.2.2.2.1, fun fuel => hz.2.2.2.2.1 fuel (Nat.zero_le _),
      fun fuel => hz.2.2.2.2.2 fuel (Nat.zero_le _)⟩,
    ⟨by decide, ht.2.2.2.1, fun fuel => ht.2.2.2.2.1 fuel (Nat.zero_le _),
      fun fuel => ht.2.2.2.2.2 fuel (Nat.zero_le _)⟩⟩

/-- Instance of C17: one unit of fuel is enough for `spiralenum(0)`. -/
theorem width_zero_boundary_witness :
    test.genLoop (spiralenum.mk 0).toEnumbase 1 (spiralenum.mk 0).toEnumbase.begin []
      = .ok (some [⟨0, 0⟩]) :=
  width_zero_boundary.1.2.2.1 1 (le_refl 1)

/-! ## Steps of the zig-zag -/

